import Mathlib

/-!
Verification of the gocker container runtime against its specification.

Each Go function that a claim depends on is shallowly embedded as a Lean
definition.  External effects (network requests, syscalls, the OS file
system) are represented by explicit environment records whose fields give
the outcome of each effectful call, and by event traces recording which
effectful calls were made and with which arguments.  Machine integers are
modelled as Nat or Int (the concrete constants involved are far below any
overflow boundary).
-/

namespace Gocker

/-! ## Character and string helpers

Go string operations used by the sources (strings.Fields, strings.TrimSpace,
strings.Split on a separator, strings.Trim with a cutset, filepath.Ext) are
embedded as structurally recursive functions over the character list of a
Lean String. -/

/-- Splits a character list into maximal runs of non-whitespace characters,
mirroring Go strings.Fields.  The accumulator holds the current field in
reverse. -/
def fieldsAux : List Char → List Char → List String
  | [], acc => if acc.isEmpty then [] else [⟨acc.reverse⟩]
  | c :: rest, acc =>
    if c.isWhitespace then
      if acc.isEmpty then fieldsAux rest [] else ⟨acc.reverse⟩ :: fieldsAux rest []
    else fieldsAux rest (c :: acc)

/-- Go strings.Fields: the whitespace-separated fields of a string. -/
def goFields (s : String) : List String := fieldsAux s.data []

/-- Go strings.TrimSpace: drop leading and trailing whitespace. -/
def goTrimSpace (s : String) : String :=
  ⟨((s.data.dropWhile Char.isWhitespace).reverse.dropWhile Char.isWhitespace).reverse⟩

/-- Splits a character list at each colon, mirroring Go
strings.Split(s, colon).  Always returns at least one (possibly empty)
part. -/
def splitAtColon : List Char → List Char → List String
  | [], acc => [⟨acc.reverse⟩]
  | c :: rest, acc =>
    if c = ':' then ⟨acc.reverse⟩ :: splitAtColon rest []
    else splitAtColon rest (c :: acc)

/-- Go strings.Split(s, colon separator). -/
def goSplitColon (s : String) : List String := splitAtColon s.data []

/-- The cutset of the Go strings.Trim call in parseEntrypoint: double quote,
single quote, opening bracket, closing bracket, comma (written via their
code points). -/
def cutsetChar (c : Char) : Bool :=
  c = Char.ofNat 34 || c = Char.ofNat 39 || c = Char.ofNat 91 ||
  c = Char.ofNat 93 || c = Char.ofNat 44

/-- Go strings.Trim(s, cutset): drop leading and trailing cutset characters. -/
def goTrimCutset (s : String) : String :=
  ⟨((s.data.dropWhile cutsetChar).reverse.dropWhile cutsetChar).reverse⟩

/-- True when the (already trimmed) line begins with the comment marker. -/
def isCommentLine (l : String) : Bool :=
  match l.data with
  | c :: _ => c = '#'
  | [] => false

/-- Go filepath.Ext over a bare file name: the suffix starting at the final
dot, or the empty string if there is no dot.  The argument is the reversed
character list; the accumulator collects the suffix seen so far. -/
def extAux : List Char → List Char → List Char
  | [], _ => []
  | c :: rest, acc => if c = '.' then c :: acc else extAux rest (c :: acc)

/-- Go filepath.Ext of a file name. -/
def filepathExt (s : String) : String := ⟨extAux s.data.reverse []⟩

/-! ## Dockerfile parser (internal/dockerfile/parser.go)

Parse reads the Dockerfile line by line; the file content is embedded as the
list of its lines.  A Go runtime panic (out-of-range slice index) is made
into an explicit, distinct outcome so that abnormal termination is visible
in the model. -/

namespace Dockerfile

/-- A parsed Dockerfile instruction (FromInstruction, CopyInstruction,
EntryPointInstruction). -/
inductive Instruction
  | fromInst (image tag : String)
  | copyInst (src dst : String)
  | entryInst (entrypoint : List String)
deriving DecidableEq

/-- Outcome of one instruction parse function: a value, a Go error, or a Go
runtime panic (out-of-range slice index). -/
inductive StepResult
  | ok (i : Instruction)
  | err (msg : String)
  | panicked
deriving DecidableEq

/-- Outcome of Parse over whole input. -/
inductive ParseResult
  | ok (is : List Instruction)
  | err (msg : String)
  | panicked
deriving DecidableEq

/-- parseFrom: requires exactly two fields, splits the argument at colons and
reads elements 0 and 1 of the split.  Reading index 1 of a split with no
colon is an out-of-range slice index in Go, i.e. a panic. -/
def parseFrom (parts : List String) : StepResult :=
  if parts.length ≠ 2 then .err ("invalid FROM instruction")
  else
    match goSplitColon (parts.getD 1 ("")) with
    | i :: t :: _ => .ok (.fromInst i t)
    | _ => .panicked

/-- parseCopy: requires exactly three fields. -/
def parseCopy (parts : List String) : StepResult :=
  if parts.length ≠ 3 then .err ("invalid COPY instruction")
  else .ok (.copyInst (parts.getD 1 ("")) (parts.getD 2 ("")))

/-- parseEntrypoint: trims each remaining field with the cutset and keeps the
nonempty results. -/
def parseEntrypoint (parts : List String) : StepResult :=
  .ok (.entryInst (((parts.drop 1).map goTrimCutset).filter (· ≠ "")))

/-- The lookup-map dispatch of Parse: the parse function registered for the
first field, or the unknown-instruction error. -/
def parseStep (key : String) (parts : List String) : StepResult :=
  if key = "FROM" then parseFrom parts
  else if key = "COPY" then parseCopy parts
  else if key = "ENTRYPOINT" then parseEntrypoint parts
  else .err ("unknown instruction: " ++ key)

/-- The scanner loop of Parse: trims each line, skips blank lines and
comments, dispatches on the first field.  Reading element 0 of an empty
field list would be a Go panic (it cannot occur for a nonempty trimmed
line, which is proved separately). -/
def parseLoop : List String → List Instruction → ParseResult
  | [], acc => .ok acc.reverse
  | line :: rest, acc =>
    if goTrimSpace line = "" ∨ isCommentLine (goTrimSpace line) then parseLoop rest acc
    else
      match (goFields (goTrimSpace line)).head? with
      | none => .panicked
      | some key =>
        match parseStep key (goFields (goTrimSpace line)) with
        | .ok i => parseLoop rest (i :: acc)
        | .err m => .err m
        | .panicked => .panicked

/-- Parse, with the Dockerfile content given as its list of lines. -/
def ParseLines (lines : List String) : ParseResult := parseLoop lines []

end Dockerfile

/-! ## Registry client (package image)

DownloadImage performs authenticate, selectPlatformDigest, fetchManifest and
one downloadLayer per manifest layer, in that order, stopping at the first
error.  Network I/O is abstracted by a RegEnv record giving the decoded
outcome of each HTTP exchange; every function additionally returns the list
of network requests it issued. -/

namespace Image

/-- Platform of a manifest-list entry (JSON fields architecture, os). -/
structure Platform where
  architecture : String
  os : String
deriving DecidableEq

/-- One entry of a manifest list. -/
structure PlatformDescriptor where
  digest : String
  platform : Platform
deriving DecidableEq

/-- A manifest list (multi-architecture index). -/
structure ManifestList where
  manifests : List PlatformDescriptor
deriving DecidableEq

/-- One layer of a concrete manifest. -/
structure Layer where
  digest : String
deriving DecidableEq

/-- A concrete single-platform manifest. -/
structure Manifest where
  layers : List Layer
deriving DecidableEq

/-- Network requests that the client can issue. -/
inductive NetEvent
  | authRequest
  | manifestListRequest
  | manifestRequest (digest : String)
  | blobRequest (digest : String)
deriving DecidableEq

/-- Failures of the registry pipeline, one constructor per Go error site. -/
inductive RegError
  | authFailed
  | manifestListFetchFailed
  | noMatchingPlatform (os arch : String)
  | manifestFetchFailed
  | layerDownloadFailed (digest : String)
deriving DecidableEq

/-- Environment of the registry client: the decoded outcome of each HTTP
exchange, the host platform (runtime.GOOS / runtime.GOARCH), and the
per-digest outcome of a blob download. -/
structure RegEnv where
  authResult : Except RegError String
  manifestListResult : Except RegError ManifestList
  goos : String
  goarch : String
  manifestResult : Except RegError Manifest
  blobOk : String → Bool

/-- authenticate: one GET against the token endpoint. -/
def authenticate (env : RegEnv) : Except RegError String × List NetEvent :=
  (env.authResult, [.authRequest])

/-- selectPlatformDigest: fetches the manifest list and scans its platform
descriptors in order for the first whose os and architecture equal the
host's, returning its digest; with no match it fails with the
no-manifest-found-for-platform error. -/
def selectPlatformDigest (env : RegEnv) : Except RegError String × List NetEvent :=
  match env.manifestListResult with
  | .error e => (.error e, [.manifestListRequest])
  | .ok ml =>
    match ml.manifests.find? (fun m => m.platform.os == env.goos && m.platform.architecture == env.goarch) with
    | some m => (.ok m.digest, [.manifestListRequest])
    | none => (.error (.noMatchingPlatform env.goos env.goarch), [.manifestListRequest])

/-- fetchManifest: one GET against the manifest endpoint for a digest. -/
def fetchManifest (env : RegEnv) (digest : String) : Except RegError Manifest × List NetEvent :=
  (env.manifestResult, [.manifestRequest digest])

/-- downloadLayer: one GET against the blob endpoint, streaming the body to
a file named by digestToFilename. -/
def downloadLayer (env : RegEnv) (digest : String) : Except RegError Unit × List NetEvent :=
  ((if env.blobOk digest then .ok () else .error (.layerDownloadFailed digest)), [.blobRequest digest])

/-- The layer loop of DownloadImage: downloads each layer in manifest order,
failing fast on the first error. -/
def downloadLoop (env : RegEnv) : List Layer → Except RegError Unit × List NetEvent
  | [] => (.ok (), [])
  | l :: rest =>
    match downloadLayer env l.digest with
    | (.ok _, evs) =>
      let (r, evs2) := downloadLoop env rest
      (r, evs ++ evs2)
    | (.error e, evs) => (.error e, evs)

/-- DownloadImage: authenticate, select the platform digest, fetch the
manifest, then download each layer; each step short-circuits on error. -/
def DownloadImage (env : RegEnv) : Except RegError Unit × List NetEvent :=
  match authenticate env with
  | (.error e, evs) => (.error e, evs)
  | (.ok _, evs0) =>
    match selectPlatformDigest env with
    | (.error e, evs1) => (.error e, evs0 ++ evs1)
    | (.ok digest, evs1) =>
      match fetchManifest env digest with
      | (.error e, evs2) => (.error e, evs0 ++ evs1 ++ evs2)
      | (.ok manifest, evs2) =>
        let (r, evs3) := downloadLoop env manifest.layers
        (r, evs0 ++ evs1 ++ evs2 ++ evs3)

/-! ### Layer file naming (digestToFilename)

base64.URLEncoding is the URL-safe RFC 4648 alphabet with padding; it is
embedded over the byte (character code) list of the digest string. -/

/-- The URL-safe base64 alphabet of base64.URLEncoding. -/
def urlAlphabet : List Char :=
  ("ABCDEFGHIJKLMNOPQRSTUVWXYZabcdefghijklmnopqrstuvwxyz0123456789-_").data

/-- The alphabet character for a 6-bit value. -/
def b64c (n : Nat) : Char := urlAlphabet.getD n ('A')

/-- URL-safe base64 with padding over a byte list, three bytes per group. -/
def base64urlEncode : List Nat → List Char
  | [] => []
  | [b1] => [b64c (b1 / 4), b64c (b1 % 4 * 16), '=', '=']
  | [b1, b2] => [b64c (b1 / 4), b64c (b1 % 4 * 16 + b2 / 16), b64c (b2 % 16 * 4), '=']
  | b1 :: b2 :: b3 :: rest =>
    b64c (b1 / 4) :: b64c (b1 % 4 * 16 + b2 / 16) :: b64c (b2 % 16 * 4 + b3 / 64) ::
    b64c (b3 % 64) :: base64urlEncode rest

/-- digestToFilename: URL-safe base64 of the digest plus the archive suffix. -/
def digestToFilename (digest : String) : String :=
  ⟨base64urlEncode (digest.data.map Char.toNat)⟩ ++ ".tar.gz"

end Image

/-! ## Layer filesystem assembler, dispatch level (package filesystem)

BuildFromLayers lists the layer directory, filters for the layer extension
and calls extractLayer on each file -- discarding extractLayer's returned
error.  extractLayer opens the file, builds gzip and tar readers, and runs
handleTarHeader, which dispatches each tar entry on its type flag and fails
on an unrecognized flag or a failing handler. -/

namespace Filesystem

/-- Failures of extraction, one constructor per Go error site. -/
inductive FsErr
  | readDirFailed
  | openFailed
  | gzipFailed
  | readEntryFailed
  | unknownEntryType (flag : Char)
  | entryHandlerFailed (name : String)
  | tarHeaderFailed (inner : FsErr)
deriving DecidableEq

/-- One tar entry as seen by handleTarHeader: its type flag, its name, and
the outcome of its per-kind handler. -/
structure TarEntry where
  typeflag : Char
  name : String
  handlerOk : Bool
deriving DecidableEq

/-- The type flags with a registered handler: tar.TypeDir, tar.TypeReg,
tar.TypeSymlink, tar.TypeLink. -/
def knownType (c : Char) : Bool := c = '5' || c = '0' || c = '2' || c = '1'

/-- handleTarHeader: reads entries in order; an entry whose flag has no
handler is a fatal unknown-tar-entry-type error, and a failing handler is a
fatal failed-to-handle-tar-entry error. -/
def handleTarHeader : List TarEntry → Except FsErr Unit
  | [] => .ok ()
  | e :: rest =>
    if knownType e.typeflag then
      if e.handlerOk then handleTarHeader rest
      else .error (.entryHandlerFailed e.name)
    else .error (.unknownEntryType e.typeflag)

/-- The observable behaviour of a single layer file: whether it opens,
whether the gzip header decodes, and its tar entries. -/
structure LayerEnv where
  openOk : Bool
  gzipOk : Bool
  entries : List TarEntry
deriving DecidableEq

/-- extractLayer: opens the layer file, builds the gzip reader, then wraps
any handleTarHeader error in a failed-to-handle-tar-header error. -/
def extractLayer (lenv : LayerEnv) : Except FsErr Unit :=
  if ¬lenv.openOk then .error .openFailed
  else if ¬lenv.gzipOk then .error .gzipFailed
  else
    match handleTarHeader lenv.entries with
    | .error e => .error (.tarHeaderFailed e)
    | .ok _ => .ok ()

/-- Environment of BuildFromLayers: the outcome of os.ReadDir (whose listing
os.ReadDir returns sorted by filename) and the behaviour of each named
layer file. -/
structure BuildEnv where
  readDir : Except FsErr (List String)
  layers : String → LayerEnv

/-- The loop of BuildFromLayers: skips files without the layer extension and
calls extractLayer on the rest.  The result of extractLayer is discarded,
exactly as in the source. -/
def buildLoop (env : BuildEnv) : List String → Except FsErr Unit
  | [] => .ok ()
  | f :: rest =>
    if filepathExt f ≠ ".gz" then buildLoop env rest
    else
      let _ := extractLayer (env.layers f)
      buildLoop env rest

/-- BuildFromLayers: reads the layer directory and runs the loop. -/
def BuildFromLayers (env : BuildEnv) : Except FsErr Unit :=
  match env.readDir with
  | .error e => .error e
  | .ok files => buildLoop env files

/-! ### Extraction order

os.ReadDir returns directory entries sorted by filename in byte order, so
the order in which BuildFromLayers extracts layers is the sorted order of
the digest-derived filenames, filtered by the layer extension. -/

/-- Byte-order (character-code) comparison of two character lists. -/
def lexLe : List Char → List Char → Bool
  | [], _ => true
  | _ :: _, [] => false
  | a :: as, b :: bs =>
    if a.toNat < b.toNat then true
    else if b.toNat < a.toNat then false
    else lexLe as bs

/-- Byte-order comparison of file names. -/
def nameLe (a b : String) : Bool := lexLe a.data b.data

/-- Insert into a sorted list, keeping it sorted by nameLe. -/
def insertName (x : String) : List String → List String
  | [] => [x]
  | y :: ys => if nameLe x y then x :: y :: ys else y :: insertName x ys

/-- Sort file names into the order returned by os.ReadDir. -/
def sortNames : List String → List String
  | [] => []
  | x :: xs => insertName x (sortNames xs)

/-- The order in which BuildFromLayers extracts the layer files of a
directory: the filename-sorted directory listing, filtered by the layer
extension. -/
def layerExtractionOrder (files : List String) : List String :=
  (sortNames files).filter (fun f => filepathExt f = ".gz")

end Filesystem

/-! ## Container execution engine (package container)

Run either takes the init branch (when the GOCKER_INIT environment variable
is the string one) or acts as supervisor: it re-executes its own binary as a
child, attaches the child's pid to a cgroup with the fixed resource limits,
kills the child if attachment fails, and otherwise waits.  Syscall outcomes
are abstracted by a CEnv record; each operation appends to an event trace. -/

namespace Container

/-- Outcome of os.Stat for a path. -/
inductive StatR
  | present
  | missing
  | otherError
deriving DecidableEq

/-- Observable effects of a launch. -/
inductive CEvent
  | childStarted (pid : Nat)
  | cgroupCreated (memMax : Int) (cpuQuota : Int) (cpuPeriod : Nat)
  | procAdded (pid : Nat)
  | childKilled
  | childWaited
  | chrooted (root : String)
  | procMounted
  | execed (path : String) (args : List String)
deriving DecidableEq

/-- Failures of the engine, one constructor per Go error site. -/
inductive CError
  | startFailed
  | cgroupCreateFailed
  | cgroupAddFailed
  | waitFailed
  | chrootFailed
  | chdirFailed
  | mountProcFailed
  | entrypointNotFound (path : String)
  | execFailed (path : String)
  | panicEmptyCommand
deriving DecidableEq

/-- Environment of a launch: the GOCKER_INIT variable, the outcomes of the
supervisor's syscalls, and the outcomes of the init branch's syscalls.  The
stat field describes the filesystem as seen after the chroot. -/
structure CEnv where
  initEnvVar : String
  startOk : Bool
  childPid : Nat
  newSystemdOk : Bool
  addProcOk : Bool
  waitOk : Bool
  chrootOk : Bool
  chdirOk : Bool
  mountOk : Bool
  stat : String → StatR
  execOk : Bool

/-- The fixed memory ceiling passed to the cgroup: 1024 * 1024 * 1024. -/
def memoryMax : Int := 1024 * 1024 * 1024

/-- The fixed CPU quota passed to the cgroup. -/
def cpuQuota : Int := 10000

/-- The fixed CPU period passed to the cgroup. -/
def cpuPeriod : Nat := 100000

/-- attachToCgroup: builds the Resources value with the fixed limits, calls
cgroup2.NewSystemd with it (recorded as a cgroupCreated event carrying the
limits), then AddProc with the given pid (recorded as procAdded). -/
def attachToCgroup (env : CEnv) (pid : Nat) : Except CError Unit × List CEvent :=
  if env.newSystemdOk then
    if env.addProcOk then
      (.ok (), [.cgroupCreated memoryMax cpuQuota cpuPeriod, .procAdded pid])
    else
      (.error .cgroupAddFailed, [.cgroupCreated memoryMax cpuQuota cpuPeriod, .procAdded pid])
  else
    (.error .cgroupCreateFailed, [.cgroupCreated memoryMax cpuQuota cpuPeriod])

/-- startInitProcess: chroot to the root filesystem, chdir to its root,
mount proc, check that the entrypoint (command element 0) exists, then
replace the process image with it.  Failure of chroot, chdir or mount
aborts before any user code; a missing entrypoint is a distinct error and
exec is never reached.  Indexing an empty command vector would be a Go
panic, modelled as a distinct error outcome. -/
def startInitProcess (env : CEnv) (rootfs : String) (command : List String) :
    Except CError Unit × List CEvent :=
  if ¬env.chrootOk then (.error .chrootFailed, [])
  else if ¬env.chdirOk then (.error .chdirFailed, [.chrooted rootfs])
  else if ¬env.mountOk then (.error .mountProcFailed, [.chrooted rootfs])
  else
    match command with
    | [] => (.error .panicEmptyCommand, [.chrooted rootfs, .procMounted])
    | c :: rest =>
      match env.stat c with
      | .missing => (.error (.entrypointNotFound c), [.chrooted rootfs, .procMounted])
      | _ =>
        if env.execOk then
          (.ok (), [.chrooted rootfs, .procMounted, .execed c (c :: rest)])
        else
          (.error (.execFailed c), [.chrooted rootfs, .procMounted, .execed c (c :: rest)])

/-- Run: the init branch when GOCKER_INIT is one; otherwise the supervisor,
which starts the child, attaches its pid to the cgroup, kills the child and
returns the attach error when attachment fails, and waits otherwise. -/
def Run (env : CEnv) (rootfs : String) (command : List String) :
    Except CError Unit × List CEvent :=
  if env.initEnvVar = "1" then startInitProcess env rootfs command
  else if ¬env.startOk then (.error .startFailed, [])
  else
    match attachToCgroup env env.childPid with
    | (.error e, attEv) =>
      (.error e, CEvent.childStarted env.childPid :: attEv ++ [CEvent.childKilled])
    | (.ok _, attEv) =>
      ((if env.waitOk then .ok () else .error .waitFailed),
       CEvent.childStarted env.childPid :: attEv ++ [CEvent.childWaited])

end Container

/-! ## Build runner, FROM handling (package build)

handleFrom computes the layer and rootfs cache paths for the image and tag,
short-circuits when os.Stat on the rootfs path does not report
not-exist, and otherwise downloads the image and assembles the root
filesystem.  Effects are abstracted by a BEnv record plus an event trace. -/

namespace Build

/-- Failures of handleFrom, one constructor per Go error site. -/
inductive BError
  | downloadFailed
  | buildFailed
deriving DecidableEq

/-- Effectful operations of handleFrom. -/
inductive BEvent
  | downloadImage (image tag dest : String)
  | buildFromLayers (dir root : String)
deriving DecidableEq

/-- Environment of handleFrom: the outcome of os.Stat on the rootfs path
and the outcomes of the download and of the assembly. -/
structure BEnv where
  stat : String → Container.StatR
  downloadOk : Bool
  buildOk : Bool

/-- The mutable runner fields that handleFrom touches. -/
structure RunnerState where
  rootfsPath : String
  entrypoint : List String
deriving DecidableEq

/-- The layer cache path for an image and tag. -/
def downloadPathFor (image tag : String) : String :=
  "/tmp/gocker/layers/" ++ image ++ "/" ++ tag

/-- The root filesystem cache path for an image and tag. -/
def rootfsPathFor (image tag : String) : String :=
  "/tmp/gocker/rootfs/" ++ image ++ "/" ++ tag

/-- handleFrom: when os.Stat on the rootfs path does not report not-exist,
the path is reused and nothing else happens; otherwise the image is
downloaded into the layer path and the root filesystem is assembled. -/
def handleFrom (env : BEnv) (st : RunnerState) (image tag : String) :
    Except BError RunnerState × List BEvent :=
  let rootfsPath := rootfsPathFor image tag
  let downloadPath := downloadPathFor image tag
  if env.stat rootfsPath ≠ Container.StatR.missing then
    (.ok { st with rootfsPath := rootfsPath }, [])
  else if ¬env.downloadOk then
    (.error .downloadFailed, [.downloadImage ("library/" ++ image) tag downloadPath])
  else if ¬env.buildOk then
    (.error .buildFailed,
     [.downloadImage ("library/" ++ image) tag downloadPath,
      .buildFromLayers downloadPath rootfsPath])
  else
    (.ok { st with rootfsPath := rootfsPath },
     [.downloadImage ("library/" ++ image) tag downloadPath,
      .buildFromLayers downloadPath rootfsPath])

end Build

/-! ## Entry-level extraction semantics for directory and regular-file
entries (internal/filesystem/tarHeaders.go, handleDir and handleReg)

The on-disk tree under targetRoot is a map from relative paths (component
lists) to nodes.  handleDir is os.MkdirAll of the full entry path: each
missing prefix becomes a directory, an existing directory is left alone,
and a file at any prefix is an error.  handleReg is os.MkdirAll of the
parent, then os.Create (create or truncate; error on a directory), os.Chmod
with the header mode, and the content copy.  This section covers exactly
the archives of claim C7: directory and regular-file entries only. -/

namespace Tar

/-- A path relative to targetRoot, as its list of components. -/
abbrev Path := List String

/-- A filesystem node: a directory or a regular file with content bytes and
permission mode. -/
inductive Node
  | dir
  | file (content : List Nat) (mode : Nat)
deriving DecidableEq

/-- The tree under targetRoot: none is an absent path. -/
abbrev FS := Path → Option Node

/-- Point update of a tree. -/
def setFS (fs : FS) (p : Path) (v : Option Node) : FS :=
  fun q => if q = p then v else fs q

/-- A tar entry of the kinds claim C7 is about. -/
inductive Entry
  | reg (path : Path) (content : List Nat) (mode : Nat)
  | dir (path : Path)
deriving DecidableEq

/-- The path of an entry. -/
def Entry.path : Entry → Path
  | .reg p _ _ => p
  | .dir p => p

/-- The node an entry writes at its own path. -/
def interp : Entry → Node
  | .reg _ c m => .file c m
  | .dir _ => .dir

/-- Extraction failures: os.MkdirAll on a file, os.Create on a directory. -/
inductive FErr
  | mkdirOnFile
  | createOnDir
deriving DecidableEq

/-- The nonempty proper prefixes of a path, shortest first: the directories
os.MkdirAll of the parent creates. -/
def parentsOf (p : Path) : List Path :=
  p.inits.filter (fun q => decide (q ≠ [] ∧ q ≠ p))

/-- All nonempty prefixes of a path, shortest first: the directories
os.MkdirAll of the path itself creates. -/
def allPrefixes (p : Path) : List Path :=
  p.inits.filter (fun q => decide (q ≠ []))

/-- One step of os.MkdirAll: create a missing directory, keep an existing
one, fail on a file. -/
def mkdirStep (fs : FS) (q : Path) : Except FErr FS :=
  match fs q with
  | none => .ok (setFS fs q (some .dir))
  | some .dir => .ok fs
  | some (.file _ _) => .error .mkdirOnFile

/-- os.MkdirAll over a prefix list, shortest first. -/
def mkdirList (fs : FS) : List Path → Except FErr FS
  | [] => .ok fs
  | q :: qs =>
    match mkdirStep fs q with
    | .ok fs1 => mkdirList fs1 qs
    | .error e => .error e

/-- os.Create, os.Chmod with the header mode, and the content copy: create
or truncate the file, fail on a directory. -/
def createFile (fs : FS) (p : Path) (c : List Nat) (m : Nat) : Except FErr FS :=
  match fs p with
  | some .dir => .error .createOnDir
  | _ => .ok (setFS fs p (some (.file c m)))

/-- Apply one tar entry: handleReg is the parent MkdirAll then createFile;
handleDir is MkdirAll of the full path. -/
def applyEntry (fs : FS) : Entry → Except FErr FS
  | .reg p c m =>
    match mkdirList fs (parentsOf p) with
    | .ok fs1 => createFile fs1 p c m
    | .error e => .error e
  | .dir p => mkdirList fs (allPrefixes p)

/-- Extract a list of entries in order, failing fast. -/
def extractEntries (fs : FS) : List Entry → Except FErr FS
  | [] => .ok fs
  | e :: rest =>
    match applyEntry fs e with
    | .ok fs1 => extractEntries fs1 rest
    | .error err => .error err

/-- The kind of a node at a path. -/
inductive NKind
  | absent
  | dirK
  | fileK
deriving DecidableEq

/-- Kind of an optional node. -/
def kindOf : Option Node → NKind
  | none => .absent
  | some .dir => .dirK
  | some (.file _ _) => .fileK

/-- How a single entry touches a path: as the subject of a create
(regular-file entry at that very path) or as a directory made or required
by MkdirAll. -/
inductive TK
  | mkdirT
  | regT
deriving DecidableEq

/-- The way entry e touches path q, if at all. -/
def touchKind : Entry → Path → Option TK
  | .reg p _ _, q =>
    if q = p then some .regT
    else if q ≠ [] ∧ q <+: p then some .mkdirT
    else none
  | .dir p, q =>
    if q ≠ [] ∧ q <+: p then some .mkdirT
    else none

/-- The first way a path is touched across an entry list. -/
def firstTouch : List Entry → Path → Option TK
  | [], _ => none
  | e :: rest, q =>
    match touchKind e q with
    | some t => some t
    | none => firstTouch rest q

/-- The last entry of a list whose own path is q. -/
def lastEntryAt : List Entry → Path → Option Entry
  | [], _ => none
  | e :: rest, q =>
    match lastEntryAt rest q with
    | some e2 => some e2
    | none => if e.path = q then some e else none

/-- Compatibility of a starting kind with the first touch of a path: an
absent path accepts any first touch, a file only a create, a directory only
a MkdirAll; an untouched path accepts nothing (equality is required
instead). -/
def compatK : NKind → Option TK → Prop
  | _, none => False
  | .absent, some _ => True
  | .fileK, some .regT => True
  | .dirK, some .mkdirT => True
  | .fileK, some .mkdirT => False
  | .dirK, some .regT => False

/-! ### Membership and touch characterizations -/

theorem mem_parentsOf {q p : Path} : q ∈ parentsOf p ↔ (q <+: p ∧ q ≠ [] ∧ q ≠ p) := by
  simp [parentsOf, List.mem_filter, List.mem_inits, and_assoc]

theorem mem_allPrefixes {q p : Path} : q ∈ allPrefixes p ↔ (q <+: p ∧ q ≠ []) := by
  simp [allPrefixes, List.mem_filter, List.mem_inits]

theorem touchKind_reg_self (p : Path) (c : List Nat) (m : Nat) :
    touchKind (.reg p c m) p = some .regT := by
  simp [touchKind]

theorem touchKind_regT {e : Entry} {q : Path} (h : touchKind e q = some .regT) :
    ∃ c m, e = .reg q c m := by
  cases e with
  | reg p c m =>
    by_cases hqp : q = p
    · subst hqp; exact ⟨c, m, rfl⟩
    · simp only [touchKind, if_neg hqp] at h
      split at h <;> simp_all
  | dir p =>
    simp only [touchKind] at h
    split at h <;> simp_all

theorem touchKind_reg_mkdirT {p : Path} {c : List Nat} {m : Nat} {q : Path} :
    touchKind (.reg p c m) q = some .mkdirT ↔ q ∈ parentsOf p := by
  rw [mem_parentsOf]
  constructor
  · intro h
    by_cases hqp : q = p
    · simp [touchKind, hqp] at h
    · simp only [touchKind, if_neg hqp] at h
      split at h
      · rename_i hc; exact ⟨hc.2, hc.1, hqp⟩
      · simp at h
  · rintro ⟨hpre, hne, hqp⟩
    simp [touchKind, hqp, hne, hpre]

theorem touchKind_dir_mkdirT {p q : Path} :
    touchKind (.dir p) q = some .mkdirT ↔ q ∈ allPrefixes p := by
  rw [mem_allPrefixes]
  constructor
  · intro h
    simp only [touchKind] at h
    split at h
    · rename_i hc; exact ⟨hc.2, hc.1⟩
    · simp at h
  · rintro ⟨hpre, hne⟩
    simp [touchKind, hne, hpre]

theorem touchKind_reg_none {p : Path} {c : List Nat} {m : Nat} {q : Path} :
    touchKind (.reg p c m) q = none ↔ (q ≠ p ∧ q ∉ parentsOf p) := by
  rw [mem_parentsOf]
  constructor
  · intro h
    by_cases hqp : q = p
    · simp [touchKind, hqp] at h
    · simp only [touchKind, if_neg hqp] at h
      split at h
      · simp at h
      · rename_i hc
        push_neg at hc
        refine ⟨hqp, fun hmem => ?_⟩
        exact absurd hmem.1 (by intro hp; exact absurd (hc hmem.2.1) (by simp [hp]))
  · rintro ⟨hqp, hnp⟩
    simp only [touchKind, if_neg hqp]
    split
    · rename_i hc
      exact absurd ⟨hc.2, hc.1, hqp⟩ hnp
    · rfl

theorem touchKind_dir_none {p q : Path} :
    touchKind (.dir p) q = none ↔ q ∉ allPrefixes p := by
  rw [mem_allPrefixes]
  constructor
  · intro h hmem
    simp [touchKind, hmem.2, hmem.1] at h
  · intro hnp
    simp only [touchKind]
    split
    · rename_i hc
      exact absurd ⟨hc.2, hc.1⟩ hnp
    · rfl

theorem compatK_mkdirT {k : NKind} (h : compatK k (some .mkdirT)) : k ≠ .fileK := by
  cases k <;> simp_all [compatK]

theorem compatK_regT {k : NKind} (h : compatK k (some .regT)) : k ≠ .dirK := by
  cases k <;> simp_all [compatK]

/-! ### MkdirAll lemmas -/

theorem setFS_self (fs : FS) (p : Path) (v : Option Node) : setFS fs p v p = v := by
  simp [setFS]

theorem setFS_other (fs : FS) (p : Path) (v : Option Node) {q : Path} (h : q ≠ p) :
    setFS fs p v q = fs q := by
  simp [setFS, h]

theorem mkdirStep_frame {fs fs1 : FS} {q r : Path} (h : mkdirStep fs q = .ok fs1)
    (hne : r ≠ q) : fs1 r = fs r := by
  unfold mkdirStep at h
  cases hfs : fs q with
  | none =>
    rw [hfs] at h
    simp only [Except.ok.injEq] at h
    subst h
    exact setFS_other _ _ _ hne
  | some n =>
    cases n with
    | dir =>
      rw [hfs] at h
      simp only [Except.ok.injEq] at h
      subst h
      rfl
    | file c m => rw [hfs] at h; cases h

theorem mkdirStep_self {fs fs1 : FS} {q : Path} (h : mkdirStep fs q = .ok fs1) :
    fs1 q = some .dir := by
  unfold mkdirStep at h
  split at h
  · cases h; simp [setFS_self]
  · cases h; assumption
  · cases h

theorem mkdirStep_not_file {fs fs1 : FS} {q : Path} (h : mkdirStep fs q = .ok fs1) :
    kindOf (fs q) ≠ .fileK := by
  unfold mkdirStep at h
  split at h <;> simp_all [kindOf]

theorem mkdirList_frame {ps : List Path} :
    ∀ {fs fs1 : FS} {r : Path}, mkdirList fs ps = .ok fs1 → r ∉ ps → fs1 r = fs r := by
  induction ps with
  | nil => intro fs fs1 r h _; cases h; rfl
  | cons q qs ih =>
    intro fs fs1 r h hr
    unfold mkdirList at h
    cases hstep : mkdirStep fs q with
    | ok fs2 =>
      rw [hstep] at h
      have h1 : fs1 r = fs2 r := ih h (fun hm => hr (List.mem_cons_of_mem _ hm))
      have h2 : fs2 r = fs r := mkdirStep_frame hstep (fun he => hr (he ▸ List.mem_cons_self q qs))
      rw [h1, h2]
    | error e => rw [hstep] at h; cases h

theorem mkdirList_preserves_dir {ps : List Path} :
    ∀ {fs fs1 : FS} {r : Path}, fs r = some .dir → mkdirList fs ps = .ok fs1 →
      fs1 r = some .dir := by
  induction ps with
  | nil => intro fs fs1 r hd h; cases h; exact hd
  | cons q qs ih =>
    intro fs fs1 r hd h
    unfold mkdirList at h
    cases hstep : mkdirStep fs q with
    | ok fs2 =>
      rw [hstep] at h
      by_cases hrq : r = q
      · subst hrq; exact ih (mkdirStep_self hstep) h
      · exact ih (by rw [mkdirStep_frame hstep hrq]; exact hd) h
    | error e => rw [hstep] at h; cases h

theorem mkdirList_mem_dir {ps : List Path} :
    ∀ {fs fs1 : FS} {r : Path}, mkdirList fs ps = .ok fs1 → r ∈ ps → fs1 r = some .dir := by
  induction ps with
  | nil => intro fs fs1 r _ hr; cases hr
  | cons q qs ih =>
    intro fs fs1 r h hr
    unfold mkdirList at h
    cases hstep : mkdirStep fs q with
    | ok fs2 =>
      rw [hstep] at h
      by_cases hmem : r ∈ qs
      · exact ih h hmem
      · have hrq : r = q := by
          rcases List.mem_cons.mp hr with h1 | h1
          · exact h1
          · exact absurd h1 hmem
        subst hrq
        exact mkdirList_preserves_dir (mkdirStep_self hstep) h
    | error e => rw [hstep] at h; cases h

theorem mkdirList_mem_not_file {ps : List Path} :
    ∀ {fs fs1 : FS} {r : Path}, mkdirList fs ps = .ok fs1 → r ∈ ps →
      kindOf (fs r) ≠ .fileK := by
  induction ps with
  | nil => intro fs fs1 r _ hr; cases hr
  | cons q qs ih =>
    intro fs fs1 r h hr
    unfold mkdirList at h
    cases hstep : mkdirStep fs q with
    | ok fs2 =>
      rw [hstep] at h
      by_cases hrq : r = q
      · subst hrq; exact mkdirStep_not_file hstep
      · have hmem : r ∈ qs := by
          rcases List.mem_cons.mp hr with h1 | h1
          · exact absurd h1 hrq
          · exact h1
        have := ih h hmem
        rwa [mkdirStep_frame hstep hrq] at this
    | error e => rw [hstep] at h; cases h

theorem createFile_self {fs fs1 : FS} {p : Path} {c : List Nat} {m : Nat}
    (h : createFile fs p c m = .ok fs1) : fs1 p = some (.file c m) := by
  unfold createFile at h
  split at h
  · cases h
  · cases h; simp [setFS_self]

theorem createFile_frame {fs fs1 : FS} {p : Path} {c : List Nat} {m : Nat} {q : Path}
    (h : createFile fs p c m = .ok fs1) (hne : q ≠ p) : fs1 q = fs q := by
  unfold createFile at h
  split at h
  · cases h
  · cases h; simp [setFS_other _ _ _ hne]

theorem createFile_not_dir {fs fs1 : FS} {p : Path} {c : List Nat} {m : Nat}
    (h : createFile fs p c m = .ok fs1) : kindOf (fs p) ≠ .dirK := by
  intro hk
  cases hfs : fs p with
  | none => rw [hfs] at hk; simp [kindOf] at hk
  | some n =>
    cases n with
    | dir => unfold createFile at h; rw [hfs] at h; cases h
    | file c2 m2 => rw [hfs] at hk; simp [kindOf] at hk

/-! ### Per-entry lemmas -/

theorem applyEntry_frame {fs fs1 : FS} {e : Entry} {q : Path} (h : applyEntry fs e = .ok fs1)
    (ht : touchKind e q = none) : fs1 q = fs q := by
  cases e with
  | reg p c m =>
    obtain ⟨hqp, hnp⟩ := touchKind_reg_none.mp ht
    simp only [applyEntry] at h
    cases hm : mkdirList fs (parentsOf p) with
    | ok fsm =>
      rw [hm] at h
      rw [createFile_frame h hqp, mkdirList_frame hm hnp]
    | error e2 => rw [hm] at h; cases h
  | dir p =>
    have hnp := touchKind_dir_none.mp ht
    simp only [applyEntry] at h
    exact mkdirList_frame h hnp

theorem applyEntry_mkdirT {fs fs1 : FS} {e : Entry} {q : Path} (h : applyEntry fs e = .ok fs1)
    (ht : touchKind e q = some .mkdirT) : fs1 q = some .dir := by
  cases e with
  | reg p c m =>
    have hmem := touchKind_reg_mkdirT.mp ht
    have hqp : q ≠ p := (mem_parentsOf.mp hmem).2.2
    simp only [applyEntry] at h
    cases hm : mkdirList fs (parentsOf p) with
    | ok fsm =>
      rw [hm] at h
      rw [createFile_frame h hqp]
      exact mkdirList_mem_dir hm hmem
    | error e2 => rw [hm] at h; cases h
  | dir p =>
    have hmem := touchKind_dir_mkdirT.mp ht
    simp only [applyEntry] at h
    exact mkdirList_mem_dir h hmem

theorem applyEntry_regT {fs fs1 : FS} {p : Path} {c : List Nat} {m : Nat}
    (h : applyEntry fs (.reg p c m) = .ok fs1) : fs1 p = some (.file c m) := by
  simp only [applyEntry] at h
  cases hm : mkdirList fs (parentsOf p) with
  | ok fsm => rw [hm] at h; exact createFile_self h
  | error e2 => rw [hm] at h; cases h

theorem applyEntry_constraint_mkdir {fs fs1 : FS} {e : Entry} {q : Path}
    (h : applyEntry fs e = .ok fs1) (ht : touchKind e q = some .mkdirT) :
    kindOf (fs q) ≠ .fileK := by
  cases e with
  | reg p c m =>
    have hmem := touchKind_reg_mkdirT.mp ht
    simp only [applyEntry] at h
    cases hm : mkdirList fs (parentsOf p) with
    | ok fsm => exact mkdirList_mem_not_file hm hmem
    | error e2 => rw [hm] at h; cases h
  | dir p =>
    have hmem := touchKind_dir_mkdirT.mp ht
    simp only [applyEntry] at h
    exact mkdirList_mem_not_file h hmem

theorem applyEntry_constraint_reg {fs fs1 : FS} {e : Entry} {q : Path}
    (h : applyEntry fs e = .ok fs1) (ht : touchKind e q = some .regT) :
    kindOf (fs q) ≠ .dirK := by
  obtain ⟨c, m, rfl⟩ := touchKind_regT ht
  simp only [applyEntry] at h
  cases hm : mkdirList fs (parentsOf q) with
  | ok fsm =>
    rw [hm] at h
    have h1 := createFile_not_dir h
    have hq : fsm q = fs q :=
      mkdirList_frame hm (fun hmem => (mem_parentsOf.mp hmem).2.2 rfl)
    rwa [hq] at h1
  | error e2 => rw [hm] at h; cases h

/-! ### Whole-extraction lemmas -/

theorem extract_firstTouch_mkdir {es : List Entry} :
    ∀ {fs fs1 : FS} {q : Path}, extractEntries fs es = .ok fs1 →
      firstTouch es q = some .mkdirT → kindOf (fs q) ≠ .fileK := by
  induction es with
  | nil => intro fs fs1 q _ hf; cases hf
  | cons e rest ih =>
    intro fs fs1 q h hf
    unfold extractEntries at h
    cases hap : applyEntry fs e with
    | ok fs2 =>
      rw [hap] at h
      cases htk : touchKind e q with
      | some t =>
        simp only [firstTouch, htk] at hf
        injection hf with hf1
        subst hf1
        exact applyEntry_constraint_mkdir hap htk
      | none =>
        simp only [firstTouch, htk] at hf
        have := ih h hf
        rwa [applyEntry_frame hap htk] at this
    | error e2 => rw [hap] at h; cases h

theorem extract_firstTouch_reg {es : List Entry} :
    ∀ {fs fs1 : FS} {q : Path}, extractEntries fs es = .ok fs1 →
      firstTouch es q = some .regT → kindOf (fs q) ≠ .dirK := by
  induction es with
  | nil => intro fs fs1 q _ hf; cases hf
  | cons e rest ih =>
    intro fs fs1 q h hf
    unfold extractEntries at h
    cases hap : applyEntry fs e with
    | ok fs2 =>
      rw [hap] at h
      cases htk : touchKind e q with
      | some t =>
        simp only [firstTouch, htk] at hf
        injection hf with hf1
        subst hf1
        exact applyEntry_constraint_reg hap htk
      | none =>
        simp only [firstTouch, htk] at hf
        have := ih h hf
        rwa [applyEntry_frame hap htk] at this
    | error e2 => rw [hap] at h; cases h

theorem extract_none_frame {es : List Entry} :
    ∀ {fs fs1 : FS} {q : Path}, extractEntries fs es = .ok fs1 →
      firstTouch es q = none → fs1 q = fs q := by
  induction es with
  | nil => intro fs fs1 q h _; cases h; rfl
  | cons e rest ih =>
    intro fs fs1 q h hf
    unfold extractEntries at h
    cases hap : applyEntry fs e with
    | ok fs2 =>
      rw [hap] at h
      cases htk : touchKind e q with
      | some t =>
        simp only [firstTouch, htk] at hf
        cases hf
      | none =>
        simp only [firstTouch, htk] at hf
        rw [ih h hf, applyEntry_frame hap htk]
    | error e2 => rw [hap] at h; cases h

theorem extract_mkdirT_dir {es : List Entry} :
    ∀ {fs fs1 : FS} {q : Path}, extractEntries fs es = .ok fs1 →
      firstTouch es q = some .mkdirT → fs1 q = some .dir := by
  induction es with
  | nil => intro fs fs1 q _ hf; cases hf
  | cons e rest ih =>
    intro fs fs1 q h hf
    unfold extractEntries at h
    cases hap : applyEntry fs e with
    | ok fs2 =>
      rw [hap] at h
      cases htk : touchKind e q with
      | some t =>
        simp only [firstTouch, htk] at hf
        injection hf with hf1
        subst hf1
        have h2 : fs2 q = some .dir := applyEntry_mkdirT hap htk
        cases hft : firstTouch rest q with
        | none => rw [extract_none_frame h hft]; exact h2
        | some t2 =>
          cases t2 with
          | mkdirT => exact ih h hft
          | regT =>
            have h3 := extract_firstTouch_reg h hft
            rw [h2] at h3
            simp [kindOf] at h3
      | none =>
        simp only [firstTouch, htk] at hf
        exact ih h hf
    | error e2 => rw [hap] at h; cases h

theorem extract_regT_file {es : List Entry} :
    ∀ {fs fs1 : FS} {q : Path}, extractEntries fs es = .ok fs1 →
      firstTouch es q = some .regT → ∃ c m, fs1 q = some (.file c m) := by
  induction es with
  | nil => intro fs fs1 q _ hf; cases hf
  | cons e rest ih =>
    intro fs fs1 q h hf
    unfold extractEntries at h
    cases hap : applyEntry fs e with
    | ok fs2 =>
      rw [hap] at h
      cases htk : touchKind e q with
      | some t =>
        simp only [firstTouch, htk] at hf
        injection hf with hf1
        subst hf1
        obtain ⟨c, m, rfl⟩ := touchKind_regT htk
        have h2 : fs2 q = some (.file c m) := applyEntry_regT hap
        cases hft : firstTouch rest q with
        | none => exact ⟨c, m, by rw [extract_none_frame h hft]; exact h2⟩
        | some t2 =>
          cases t2 with
          | regT => exact ih h hft
          | mkdirT =>
            have h3 := extract_firstTouch_mkdir h hft
            rw [h2] at h3
            simp [kindOf] at h3
      | none =>
        simp only [firstTouch, htk] at hf
        exact ih h hf
    | error e2 => rw [hap] at h; cases h

/-! ### Last-write-wins -/

theorem lastEntryAt_none_path {es : List Entry} {q : Path} (h : lastEntryAt es q = none) :
    ∀ e ∈ es, Entry.path e ≠ q := by
  induction es with
  | nil => intro e he; cases he
  | cons e0 rest ih =>
    intro e he
    simp only [lastEntryAt] at h
    cases hl : lastEntryAt rest q with
    | some e2 => rw [hl] at h; cases h
    | none =>
      rw [hl] at h
      rcases List.mem_cons.mp he with rfl | hmem
      · intro hp
        rw [if_pos hp] at h
        cases h
      · exact ih hl e hmem

theorem firstTouch_regT_mem {es : List Entry} {q : Path} (h : firstTouch es q = some .regT) :
    ∃ e ∈ es, Entry.path e = q := by
  induction es with
  | nil => cases h
  | cons e rest ih =>
    cases htk : touchKind e q with
    | some t =>
      simp only [firstTouch, htk] at h
      injection h with h1
      subst h1
      obtain ⟨c, m, rfl⟩ := touchKind_regT htk
      exact ⟨_, List.mem_cons_self _ _, rfl⟩
    | none =>
      simp only [firstTouch, htk] at h
      obtain ⟨e2, hmem, hp⟩ := ih h
      exact ⟨e2, List.mem_cons_of_mem _ hmem, hp⟩

theorem extract_lastEntry_reg {es : List Entry} :
    ∀ {fs fs1 : FS} {q : Path} {c : List Nat} {m : Nat},
      extractEntries fs es = .ok fs1 → lastEntryAt es q = some (.reg q c m) →
      fs1 q = some (.file c m) := by
  induction es with
  | nil => intro fs fs1 q c m _ hl; cases hl
  | cons e rest ih =>
    intro fs fs1 q c m h hl
    unfold extractEntries at h
    cases hap : applyEntry fs e with
    | ok fs2 =>
      rw [hap] at h
      simp only [lastEntryAt] at hl
      cases hrest : lastEntryAt rest q with
      | some e2 =>
        rw [hrest] at hl
        injection hl with hl1
        subst hl1
        exact ih h hrest
      | none =>
        rw [hrest] at hl
        by_cases hp : Entry.path e = q
        · rw [if_pos hp] at hl
          injection hl with hl1
          subst hl1
          have h2 : fs2 q = some (.file c m) := applyEntry_regT hap
          cases hft : firstTouch rest q with
          | none => rw [extract_none_frame h hft]; exact h2
          | some t2 =>
            cases t2 with
            | mkdirT =>
              have h3 := extract_firstTouch_mkdir h hft
              rw [h2] at h3
              simp [kindOf] at h3
            | regT =>
              obtain ⟨e2, hmem, hp2⟩ := firstTouch_regT_mem hft
              exact absurd hp2 (lastEntryAt_none_path hrest e2 hmem)
        · rw [if_neg hp] at hl
          cases hl
    | error e2 => rw [hap] at h; cases h

/-! ### Replay: a successful extraction replayed from its own result
reproduces that result.  The replay invariant allows the replay tree to
differ from the original start tree only at paths whose first touch is
compatible with the replay tree's kind there. -/

theorem mkdirList_replay {ps : List Path} :
    ∀ {g h h1 : FS}, mkdirList h ps = .ok h1 →
      (∀ q, q ∈ ps → (g q = h q ∨ kindOf (g q) ≠ .fileK)) →
      ∃ g1, mkdirList g ps = .ok g1 ∧
        (∀ q, q ∈ ps → (g1 q = some .dir ∧ h1 q = some .dir)) ∧
        (∀ q, q ∉ ps → (g1 q = g q ∧ h1 q = h q)) := by
  induction ps with
  | nil =>
    intro g h h1 hh _
    cases hh
    exact ⟨g, rfl, fun q hq => absurd hq (List.not_mem_nil q), fun q _ => ⟨rfl, rfl⟩⟩
  | cons q0 qs ih =>
    intro g h h1 hh hrel
    unfold mkdirList at hh
    cases hstep : mkdirStep h q0 with
    | error e => rw [hstep] at hh; cases hh
    | ok h2 =>
      rw [hstep] at hh
      have hq0 := hrel q0 (List.mem_cons_self q0 qs)
      have hgstep : ∃ g2, mkdirStep g q0 = .ok g2 ∧ g2 q0 = some .dir ∧
          (∀ r, r ≠ q0 → g2 r = g r) := by
        cases hg : g q0 with
        | none =>
          refine ⟨setFS g q0 (some .dir), ?_, setFS_self _ _ _, fun r hr => setFS_other _ _ _ hr⟩
          unfold mkdirStep
          rw [hg]
        | some n =>
          cases n with
          | dir =>
            refine ⟨g, ?_, hg, fun r _ => rfl⟩
            unfold mkdirStep
            rw [hg]
          | file c m =>
            exfalso
            rcases hq0 with heq | hk
            · have hbad : mkdirStep h q0 = .error .mkdirOnFile := by
                unfold mkdirStep
                rw [← heq, hg]
              rw [hbad] at hstep
              cases hstep
            · exact hk (by rw [hg]; rfl)
      obtain ⟨g2, hgs, hg2q0, hg2f⟩ := hgstep
      have hh2q0 : h2 q0 = some .dir := mkdirStep_self hstep
      have hh2f : ∀ r, r ≠ q0 → h2 r = h r := fun r hr => mkdirStep_frame hstep hr
      have hrel2 : ∀ q, q ∈ qs → (g2 q = h2 q ∨ kindOf (g2 q) ≠ .fileK) := by
        intro q hq
        by_cases hqq : q = q0
        · subst hqq
          right
          rw [hg2q0]
          simp [kindOf]
        · rw [hg2f q hqq, hh2f q hqq]
          exact hrel q (List.mem_cons_of_mem _ hq)
      obtain ⟨g1, hgl, hmem, hnmem⟩ := ih hh hrel2
      refine ⟨g1, ?_, ?_, ?_⟩
      · unfold mkdirList
        rw [hgs]
        exact hgl
      · intro q hq
        by_cases hqs : q ∈ qs
        · exact hmem q hqs
        · have hqq : q = q0 := by
            rcases List.mem_cons.mp hq with h3 | h3
            · exact h3
            · exact absurd h3 hqs
          subst hqq
          obtain ⟨hga, hhb⟩ := hnmem q hqs
          exact ⟨by rw [hga]; exact hg2q0, by rw [hhb]; exact hh2q0⟩
      · intro q hq
        have hq0ne : q ≠ q0 := fun he => hq (he ▸ List.mem_cons_self q0 qs)
        have hqs : q ∉ qs := fun hm => hq (List.mem_cons_of_mem _ hm)
        obtain ⟨hga, hhb⟩ := hnmem q hqs
        exact ⟨by rw [hga]; exact hg2f q hq0ne, by rw [hhb]; exact hh2f q hq0ne⟩

theorem applyEntry_replay {e : Entry} {g h h1 : FS} (hap : applyEntry h e = .ok h1)
    (hrel : ∀ q, touchKind e q = some .mkdirT → (g q = h q ∨ kindOf (g q) ≠ .fileK))
    (hrel2 : ∀ q, touchKind e q = some .regT → (g q = h q ∨ kindOf (g q) ≠ .dirK)) :
    ∃ g1, applyEntry g e = .ok g1 ∧
      (∀ q, touchKind e q ≠ none → g1 q = h1 q) ∧
      (∀ q, touchKind e q = none → (g1 q = g q ∧ h1 q = h q)) := by
  cases e with
  | dir p =>
    simp only [applyEntry] at hap ⊢
    obtain ⟨g1, hgl, hmem, hnmem⟩ :=
      mkdirList_replay hap (fun q hq => hrel q (touchKind_dir_mkdirT.mpr hq))
    refine ⟨g1, hgl, ?_, ?_⟩
    · intro q hne
      cases htk : touchKind (Entry.dir p) q with
      | none => exact absurd htk hne
      | some t =>
        cases t with
        | mkdirT =>
          obtain ⟨h1d, h2d⟩ := hmem q (touchKind_dir_mkdirT.mp htk)
          rw [h1d, h2d]
        | regT =>
          exfalso
          obtain ⟨c, m, he⟩ := touchKind_regT htk
          cases he
    · intro q htk
      exact hnmem q (touchKind_dir_none.mp htk)
  | reg p c m =>
    simp only [applyEntry] at hap ⊢
    cases hm : mkdirList h (parentsOf p) with
    | error e2 => rw [hm] at hap; cases hap
    | ok hm1 =>
      simp only [hm] at hap
      obtain ⟨gm, hgl, hmem, hnmem⟩ :=
        mkdirList_replay hm (fun q hq => hrel q (touchKind_reg_mkdirT.mpr hq))
      have hpnot : p ∉ parentsOf p := fun hmm => (mem_parentsOf.mp hmm).2.2 rfl
      obtain ⟨hgmp, hhmp⟩ := hnmem p hpnot
      have hh1 : h1 = setFS hm1 p (some (.file c m)) := by
        unfold createFile at hap
        cases hmp : hm1 p with
        | none =>
          rw [hmp] at hap
          injection hap with h3
          exact h3.symm
        | some n =>
          cases n with
          | dir => rw [hmp] at hap; cases hap
          | file c2 m2 =>
            rw [hmp] at hap
            injection hap with h3
            exact h3.symm
      have hgnd : kindOf (gm p) ≠ .dirK := by
        rw [hgmp]
        rcases hrel2 p (touchKind_reg_self p c m) with heq | hk
        · rw [heq, ← hhmp]
          exact createFile_not_dir hap
        · exact hk
      have hgc : createFile gm p c m = .ok (setFS gm p (some (.file c m))) := by
        unfold createFile
        cases hgp : gm p with
        | none => rfl
        | some n =>
          cases n with
          | dir => exact absurd (by rw [hgp]; rfl) hgnd
          | file c2 m2 => rfl
      refine ⟨setFS gm p (some (.file c m)), ?_, ?_, ?_⟩
      · rw [hgl]
        exact hgc
      · intro q hne
        cases htk : touchKind (Entry.reg p c m) q with
        | none => exact absurd htk hne
        | some t =>
          cases t with
          | regT =>
            obtain ⟨c2, m2, he⟩ := touchKind_regT htk
            injection he with hp hc hm2
            subst hp
            rw [setFS_self, hh1, setFS_self]
          | mkdirT =>
            have hq := touchKind_reg_mkdirT.mp htk
            have hqp : q ≠ p := (mem_parentsOf.mp hq).2.2
            obtain ⟨h1d, h2d⟩ := hmem q hq
            rw [setFS_other _ _ _ hqp, hh1, setFS_other _ _ _ hqp, h1d, h2d]
      · intro q htk
        obtain ⟨hqp, hnp⟩ := touchKind_reg_none.mp htk
        obtain ⟨hga, hhb⟩ := hnmem q hnp
        rw [setFS_other _ _ _ hqp, hh1, setFS_other _ _ _ hqp]
        exact ⟨hga, hhb⟩

theorem extract_replay {es : List Entry} :
    ∀ {g h h1 : FS}, extractEntries h es = .ok h1 →
      (∀ q, g q = h q ∨ compatK (kindOf (g q)) (firstTouch es q)) →
      extractEntries g es = .ok h1 := by
  induction es with
  | nil =>
    intro g h h1 hh hrel
    cases hh
    have hgh : g = h := by
      funext q
      rcases hrel q with heq | hc
      · exact heq
      · exfalso
        revert hc
        cases kindOf (g q) <;> simp [compatK, firstTouch]
    rw [hgh]
    rfl
  | cons e rest ih =>
    intro g h h1 hh hrel
    unfold extractEntries at hh
    cases hap : applyEntry h e with
    | error e2 => rw [hap] at hh; cases hh
    | ok h2 =>
      rw [hap] at hh
      have hrelm : ∀ q, touchKind e q = some .mkdirT → (g q = h q ∨ kindOf (g q) ≠ .fileK) := by
        intro q htk
        rcases hrel q with heq | hc
        · exact Or.inl heq
        · have hft : firstTouch (e :: rest) q = some .mkdirT := by
            simp only [firstTouch, htk]
          rw [hft] at hc
          exact Or.inr (compatK_mkdirT hc)
      have hrelr : ∀ q, touchKind e q = some .regT → (g q = h q ∨ kindOf (g q) ≠ .dirK) := by
        intro q htk
        rcases hrel q with heq | hc
        · exact Or.inl heq
        · have hft : firstTouch (e :: rest) q = some .regT := by
            simp only [firstTouch, htk]
          rw [hft] at hc
          exact Or.inr (compatK_regT hc)
      obtain ⟨g2, hgap, hteq, htnone⟩ := applyEntry_replay hap hrelm hrelr
      have hrel3 : ∀ q, g2 q = h2 q ∨ compatK (kindOf (g2 q)) (firstTouch rest q) := by
        intro q
        cases htk : touchKind e q with
        | some t => exact Or.inl (hteq q (by simp [htk]))
        | none =>
          obtain ⟨hg2, hh2⟩ := htnone q htk
          rcases hrel q with heq | hc
          · exact Or.inl (by rw [hg2, hh2, heq])
          · have hft : firstTouch (e :: rest) q = firstTouch rest q := by
              simp only [firstTouch, htk]
            rw [hft] at hc
            rw [hg2]
            exact Or.inr hc
      have hrest := ih hh hrel3
      unfold extractEntries
      rw [hgap]
      exact hrest

theorem extract_append {A B : List Entry} :
    ∀ {fs : FS}, extractEntries fs (A ++ B) =
      match extractEntries fs A with
      | .ok f => extractEntries f B
      | .error e2 => .error e2 := by
  induction A with
  | nil => intro fs; rfl
  | cons e rest ih =>
    intro fs
    simp only [List.cons_append, extractEntries]
    cases hap : applyEntry fs e with
    | ok fs2 => exact ih
    | error e2 => rfl

end Tar

/-! ## Hard-link extraction (internal/filesystem/tarHeaders.go, handleLink)

handleLink needs a representation in which two paths can name the same
underlying file, so here the tree is a finite association list from paths
to nodes, where a file node is a reference to an underlying inode.
os.Remove removes a file or an empty directory and fails otherwise (the Go
code discards its error, so failure leaves the tree unchanged); os.Link
fails when the new path exists, when the old path is absent, or when the
old path is a directory. -/

namespace HardLink

/-- A node: a directory, or a name for the underlying file (inode) i. -/
inductive HNode
  | dir
  | ref (i : Nat)
deriving DecidableEq

/-- The tree under targetRoot as a finite association list; the first
binding of a path is its node. -/
abbrev HFS := List (Tar.Path × HNode)

/-- Lookup of a path. -/
def hlookup : HFS → Tar.Path → Option HNode
  | [], _ => none
  | (k, v) :: rest, p => if p = k then some v else hlookup rest p

/-- Whether a path has an entry strictly below it. -/
def hasChild (fs : HFS) (p : Tar.Path) : Bool :=
  fs.any (fun kv => decide (kv.1 ≠ p ∧ p <+: kv.1))

/-- Drop every binding of a path. -/
def hremoveKey : HFS → Tar.Path → HFS
  | [], _ => []
  | (k, v) :: rest, p => if k = p then hremoveKey rest p else (k, v) :: hremoveKey rest p

/-- os.Remove with its error discarded: removes a file or an empty
directory; leaves the tree unchanged on a non-empty directory or an absent
path. -/
def osRemove (fs : HFS) (p : Tar.Path) : HFS :=
  match hlookup fs p with
  | some (.ref _) => hremoveKey fs p
  | some .dir => if hasChild fs p then fs else hremoveKey fs p
  | none => fs

/-- Failures of the hard-link handler, one per failing OS call. -/
inductive LErr
  | notADir
  | linkNoEnt
  | linkExist
  | linkPerm
deriving DecidableEq

/-- os.Link(oldpath, newpath). -/
def osLink (fs : HFS) (oldp newp : Tar.Path) : Except LErr HFS :=
  match hlookup fs newp with
  | some _ => .error .linkExist
  | none =>
    match hlookup fs oldp with
    | some (.ref i) => .ok ((newp, .ref i) :: fs)
    | some .dir => .error .linkPerm
    | none => .error .linkNoEnt

/-- One step of os.MkdirAll on the association-list tree. -/
def hmkdirStep (fs : HFS) (q : Tar.Path) : Except LErr HFS :=
  match hlookup fs q with
  | none => .ok ((q, .dir) :: fs)
  | some .dir => .ok fs
  | some (.ref _) => .error .notADir

/-- os.MkdirAll over a prefix list. -/
def hmkdirList (fs : HFS) : List Tar.Path → Except LErr HFS
  | [] => .ok fs
  | q :: qs =>
    match hmkdirStep fs q with
    | .ok fs1 => hmkdirList fs1 qs
    | .error e => .error e

/-- handleLink: MkdirAll of the destination's parent; the link target is
hdr.Linkname joined onto targetRoot, hence a path looked up in this same
tree; os.Remove of the destination (error discarded); then os.Link from
the resolved target to the destination. -/
def handleLink (fs : HFS) (name linkname : Tar.Path) : Except LErr HFS :=
  match hmkdirList fs (Tar.parentsOf name) with
  | .error e => .error e
  | .ok fs1 =>
    let linkTarget := linkname
    let fs2 := osRemove fs1 name
    osLink fs2 linkTarget name

theorem hlookup_hremoveKey (p r : Tar.Path) :
    ∀ fs : HFS, hlookup (hremoveKey fs p) r = if r = p then none else hlookup fs r := by
  intro fs
  induction fs with
  | nil => simp [hremoveKey, hlookup]
  | cons kv rest ih =>
    obtain ⟨k, v⟩ := kv
    by_cases hkp : k = p
    · simp only [hremoveKey, if_pos hkp, ih]
      by_cases hrp : r = p
      · simp [hrp]
      · have hrk : r ≠ k := fun he => hrp (he.trans hkp)
        simp [hlookup, hrp, hrk]
    · simp only [hremoveKey, if_neg hkp]
      by_cases hrk : r = k
      · have hrp : r ≠ p := fun he => hkp (hrk.symm.trans he)
        simp [hlookup, hrk, hrp, hkp]
      · simp [hlookup, hrk, ih]

theorem osRemove_lookup (fs : HFS) (p r : Tar.Path) :
    hlookup (osRemove fs p) r = hlookup fs r ∨ hlookup (osRemove fs p) r = none := by
  unfold osRemove
  cases hp : hlookup fs p with
  | none => exact Or.inl rfl
  | some n =>
    cases n with
    | dir =>
      by_cases hc : hasChild fs p
      · rw [if_pos hc]; exact Or.inl rfl
      · rw [if_neg hc, hlookup_hremoveKey]
        by_cases hrp : r = p
        · rw [if_pos hrp]; exact Or.inr rfl
        · rw [if_neg hrp]; exact Or.inl rfl
    | ref i =>
      rw [hlookup_hremoveKey]
      by_cases hrp : r = p
      · rw [if_pos hrp]; exact Or.inr rfl
      · rw [if_neg hrp]; exact Or.inl rfl

theorem osRemove_clears {fs : HFS} {p : Tar.Path}
    (hd : hlookup fs p = none ∨ ∃ j, hlookup fs p = some (.ref j)) :
    hlookup (osRemove fs p) p = none ∧
    (∀ r, r ≠ p → hlookup (osRemove fs p) r = hlookup fs r) := by
  unfold osRemove
  rcases hd with hnone | ⟨j, href⟩
  · rw [hnone]
    exact ⟨hnone, fun r _ => rfl⟩
  · rw [href]
    constructor
    · rw [hlookup_hremoveKey, if_pos rfl]
    · intro r hr
      rw [hlookup_hremoveKey, if_neg hr]

theorem hmkdirList_lookup {ps : List Tar.Path} :
    ∀ {fs fs1 : HFS}, hmkdirList fs ps = .ok fs1 →
      ∀ r, hlookup fs1 r = hlookup fs r ∨ hlookup fs1 r = some .dir := by
  induction ps with
  | nil =>
    intro fs fs1 h r
    cases h
    exact Or.inl rfl
  | cons q qs ih =>
    intro fs fs1 h r
    unfold hmkdirList at h
    cases hstep : hmkdirStep fs q with
    | error e => rw [hstep] at h; cases h
    | ok fs2 =>
      rw [hstep] at h
      have hstep2 : hlookup fs2 r = hlookup fs r ∨ hlookup fs2 r = some .dir := by
        unfold hmkdirStep at hstep
        cases hq : hlookup fs q with
        | none =>
          rw [hq] at hstep
          injection hstep with h2
          subst h2
          by_cases hrq : r = q
          · subst hrq
            right
            simp [hlookup]
          · left
            simp [hlookup, hrq]
        | some n =>
          cases n with
          | dir =>
            rw [hq] at hstep
            injection hstep with h2
            subst h2
            exact Or.inl rfl
          | ref i => rw [hq] at hstep; cases hstep
      rcases ih h r with h3 | h3
      · rcases hstep2 with h4 | h4
        · exact Or.inl (by rw [h3, h4])
        · exact Or.inr (by rw [h3, h4])
      · exact Or.inr h3

theorem hmkdirList_success {ps : List Tar.Path} :
    ∀ {fs : HFS}, (∀ q ∈ ps, hlookup fs q = none ∨ hlookup fs q = some .dir) →
      ∃ fs1, hmkdirList fs ps = .ok fs1 ∧
        ∀ r, r ∉ ps → hlookup fs1 r = hlookup fs r := by
  induction ps with
  | nil => intro fs _; exact ⟨fs, rfl, fun r _ => rfl⟩
  | cons q qs ih =>
    intro fs hpre
    have hq := hpre q (List.mem_cons_self q qs)
    have hstep : ∃ fs2, hmkdirStep fs q = .ok fs2 ∧
        (∀ r, r ≠ q → hlookup fs2 r = hlookup fs r) ∧ hlookup fs2 q = some .dir := by
      rcases hq with hnone | hdir
      · refine ⟨(q, .dir) :: fs, ?_, ?_, ?_⟩
        · unfold hmkdirStep; rw [hnone]
        · intro r hr; simp [hlookup, hr]
        · simp [hlookup]
      · refine ⟨fs, ?_, fun r _ => rfl, hdir⟩
        unfold hmkdirStep; rw [hdir]
    obtain ⟨fs2, hs, hpres, hq2⟩ := hstep
    have hpre2 : ∀ r ∈ qs, hlookup fs2 r = none ∨ hlookup fs2 r = some .dir := by
      intro r hr
      by_cases hrq : r = q
      · subst hrq; exact Or.inr hq2
      · rw [hpres r hrq]
        exact hpre r (List.mem_cons_of_mem _ hr)
    obtain ⟨fs1, hrec, hpres2⟩ := ih hpre2
    refine ⟨fs1, ?_, ?_⟩
    · unfold hmkdirList
      rw [hs]
      exact hrec
    · intro r hr
      have hrq : r ≠ q := fun he => hr (he ▸ List.mem_cons_self q qs)
      have hrqs : r ∉ qs := fun hm => hr (List.mem_cons_of_mem _ hm)
      rw [hpres2 r hrqs, hpres r hrq]

end HardLink

/-! ## Totality lemmas for the Dockerfile parser -/

theorem splitAtColon_ne_nil : ∀ (cs acc : List Char), splitAtColon cs acc ≠ [] := by
  intro cs
  induction cs with
  | nil => intro acc; simp [splitAtColon]
  | cons c rest ih =>
    intro acc
    unfold splitAtColon
    by_cases hc : c = ':'
    · rw [if_pos hc]; simp
    · rw [if_neg hc]; exact ih _

theorem dropWhile_head_not {p : Char → Bool} :
    ∀ {l : List Char} {c : Char} {rest : List Char},
      l.dropWhile p = c :: rest → p c = false := by
  intro l
  induction l with
  | nil => intro c rest h; cases h
  | cons x xs ih =>
    intro c rest h
    rw [List.dropWhile_cons] at h
    by_cases hx : p x = true
    · rw [if_pos hx] at h
      exact ih h
    · rw [if_neg hx] at h
      injection h with h1 _
      subst h1
      exact Bool.eq_false_iff.mpr hx

theorem goTrimSpace_has_nonws (l : String) (h : goTrimSpace l ≠ "") :
    ∃ c ∈ (goTrimSpace l).data, c.isWhitespace = false := by
  have hdata : (goTrimSpace l).data =
      ((l.data.dropWhile Char.isWhitespace).reverse.dropWhile Char.isWhitespace).reverse := rfl
  cases hd : (l.data.dropWhile Char.isWhitespace).reverse.dropWhile Char.isWhitespace with
  | nil =>
    exfalso
    apply h
    apply String.ext
    rw [hdata, hd]
    rfl
  | cons c rest =>
    refine ⟨c, ?_, dropWhile_head_not hd⟩
    rw [hdata, hd]
    simp

theorem fieldsAux_acc_ne_nil : ∀ (cs acc : List Char), acc ≠ [] → fieldsAux cs acc ≠ [] := by
  intro cs
  induction cs with
  | nil =>
    intro acc hacc
    simp [fieldsAux, List.isEmpty_iff, hacc]
  | cons c rest ih =>
    intro acc hacc
    unfold fieldsAux
    by_cases hc : c.isWhitespace = true
    · rw [if_pos hc, if_neg (by simp [List.isEmpty_iff, hacc])]
      simp
    · rw [if_neg hc]
      exact ih _ (by simp)

theorem fieldsAux_ne_nil_of_mem :
    ∀ (cs : List Char), (∃ c ∈ cs, c.isWhitespace = false) →
      ∀ acc, fieldsAux cs acc ≠ [] := by
  intro cs
  induction cs with
  | nil => rintro ⟨c, hc, _⟩; cases hc
  | cons x xs ih =>
    rintro ⟨c, hc, hcws⟩ acc
    unfold fieldsAux
    by_cases hx : x.isWhitespace = true
    · have hcxs : c ∈ xs := by
        rcases List.mem_cons.mp hc with rfl | hm
        · rw [hx] at hcws; cases hcws
        · exact hm
      by_cases hacc : acc.isEmpty = true
      · rw [if_pos hx, if_pos hacc]
        exact ih ⟨c, hcxs, hcws⟩ []
      · rw [if_pos hx, if_neg hacc]
        simp
    · rw [if_neg hx]
      exact fieldsAux_acc_ne_nil _ _ (by simp)

theorem goFields_trim_ne_nil (l : String) (h : goTrimSpace l ≠ "") :
    goFields (goTrimSpace l) ≠ [] := by
  obtain ⟨c, hc, hcws⟩ := goTrimSpace_has_nonws l h
  exact fieldsAux_ne_nil_of_mem _ ⟨c, hc, hcws⟩ []

namespace Dockerfile

theorem parseCopy_ne_panicked (parts : List String) : parseCopy parts ≠ .panicked := by
  unfold parseCopy
  split <;> simp

theorem parseEntrypoint_ne_panicked (parts : List String) :
    parseEntrypoint parts ≠ .panicked := by
  simp [parseEntrypoint]

theorem parseFrom_ne_panicked {parts : List String}
    (h : parts.length = 2 → 2 ≤ (goSplitColon (parts.getD 1 (""))).length) :
    parseFrom parts ≠ .panicked := by
  unfold parseFrom
  by_cases hlen : parts.length ≠ 2
  · rw [if_pos hlen]; simp
  · rw [if_neg hlen]
    have hge := h (not_not.mp hlen)
    cases hx : goSplitColon (parts.getD 1 ("")) with
    | nil => rw [hx] at hge; simp at hge
    | cons a as =>
      cases as with
      | nil => rw [hx] at hge; simp at hge
      | cons b bs => simp [hx]

theorem parseStep_ne_panicked {key : String} {parts : List String}
    (h : key = "FROM" → parts.length = 2 → 2 ≤ (goSplitColon (parts.getD 1 (""))).length) :
    parseStep key parts ≠ .panicked := by
  unfold parseStep
  by_cases h1 : key = "FROM"
  · rw [if_pos h1]
    exact parseFrom_ne_panicked (h h1)
  · rw [if_neg h1]
    by_cases h2 : key = "COPY"
    · rw [if_pos h2]; exact parseCopy_ne_panicked _
    · rw [if_neg h2]
      by_cases h3 : key = "ENTRYPOINT"
      · rw [if_pos h3]; exact parseEntrypoint_ne_panicked _
      · rw [if_neg h3]; simp

theorem parseLoop_no_panic :
    ∀ (lines : List String) (acc : List Instruction),
      (∀ l ∈ lines, ∀ x, goFields (goTrimSpace l) = ["FROM", x] →
        2 ≤ (goSplitColon x).length) →
      parseLoop lines acc ≠ .panicked := by
  intro lines
  induction lines with
  | nil =>
    intro acc _
    simp [parseLoop]
  | cons line rest ih =>
    intro acc hcond
    have hrest := fun l hl => hcond l (List.mem_cons_of_mem _ hl)
    have hline := hcond line (List.mem_cons_self _ _)
    unfold parseLoop
    by_cases hskip : (goTrimSpace line = "" ∨ isCommentLine (goTrimSpace line) = true)
    · rw [if_pos hskip]
      exact ih acc hrest
    · rw [if_neg hskip]
      have hne : goTrimSpace line ≠ "" := fun he => hskip (Or.inl he)
      have hfne : goFields (goTrimSpace line) ≠ [] := goFields_trim_ne_nil _ hne
      cases hfields : (goFields (goTrimSpace line)).head? with
      | none => exact absurd (List.head?_eq_none_iff.mp hfields) hfne
      | some key =>
        have hstep : parseStep key (goFields (goTrimSpace line)) ≠ .panicked := by
          apply parseStep_ne_panicked
          intro hkey hlen
          cases hparts : goFields (goTrimSpace line) with
          | nil => exact absurd hparts hfne
          | cons a as =>
            have ha : a = key := by
              rw [hparts] at hfields
              injection hfields
            cases as with
            | nil => rw [hparts] at hlen; simp at hlen
            | cons b bs =>
              cases bs with
              | nil =>
                have hform : goFields (goTrimSpace line) = ["FROM", b] := by
                  rw [hparts, ha, hkey]
                have hb := hline b hform
                simpa using hb
              | cons c cs => rw [hparts] at hlen; simp at hlen
        show (match parseStep key (goFields (goTrimSpace line)) with
          | StepResult.ok i => parseLoop rest (i :: acc)
          | StepResult.err m => ParseResult.err m
          | StepResult.panicked => ParseResult.panicked) ≠ ParseResult.panicked
        cases hps : parseStep key (goFields (goTrimSpace line)) with
        | ok i => exact ih _ hrest
        | err m => simp
        | panicked => exact absurd hps hstep

end Dockerfile

/-! ## Claims -/

/-- A layer file whose tar stream holds a single entry with the
unrecognized type flag X. -/
def badLayerEnv : Filesystem.LayerEnv := ⟨true, true, [⟨'X', "strangefile", true⟩]⟩

/-- A layer directory with that single layer file. -/
def badBuildEnv : Filesystem.BuildEnv := ⟨.ok [("a.tar.gz")], fun _ => badLayerEnv⟩

/-- C1: the claim that every extraction error propagates out of
BuildFromLayers is violated by the code: extractLayer reports the fatal
unknown-entry-type error for its layer, but BuildFromLayers discards the
result of the extractLayer call and returns success, so the failure is
silently swallowed. -/
theorem C1_extraction_error_swallowed :
    Filesystem.extractLayer badLayerEnv =
      .error (.tarHeaderFailed (.unknownEntryType 'X')) ∧
    Filesystem.BuildFromLayers badBuildEnv = .ok () := ⟨rfl, rfl⟩

/-- A two-layer manifest, in manifest order. -/
def manifestLayerDigests : List String := [("sha256:aa30"), ("sha256:aa3a")]

/-- C2: the claim that layers are extracted in ascending manifest order is
violated by the code: the downloaded files are named by the URL-safe base64
of the digest, the assembler traverses the directory in filename-sorted
order, and for this manifest the filename order reverses the manifest
order, so the second layer is extracted before the first. -/
theorem C2_extraction_order_reverses_manifest_order :
    Filesystem.layerExtractionOrder (manifestLayerDigests.map Image.digestToFilename) =
      [Image.digestToFilename ("sha256:aa3a"), Image.digestToFilename ("sha256:aa30")] ∧
    Image.digestToFilename ("sha256:aa3a") ≠ Image.digestToFilename ("sha256:aa30") := by
  exact ⟨rfl, by decide⟩

/-- C3: in the init branch, when chroot, chdir and the proc mount succeed
and os.Stat reports the entrypoint path (command element 0) as missing
inside the new root, startInitProcess returns the distinct
entrypoint-not-found error carrying that path, and exec is never reached:
the isolated process is never started. -/
theorem C3_missing_entrypoint_distinct_error (env : Container.CEnv) (rootfs c : String)
    (rest : List String) (h1 : env.chrootOk = true) (h2 : env.chdirOk = true)
    (h3 : env.mountOk = true) (h4 : env.stat c = .missing) :
    (Container.startInitProcess env rootfs (c :: rest)).1 =
      .error (.entrypointNotFound c) ∧
    ∀ p a, Container.CEvent.execed p a ∉
      (Container.startInitProcess env rootfs (c :: rest)).2 := by
  constructor
  · simp [Container.startInitProcess, h1, h2, h3, h4]
  · intro p a
    simp [Container.startInitProcess, h1, h2, h3, h4]

/-- The environment of the example scenario: init branch, entrypoint absent. -/
def envC3 : Container.CEnv :=
  ⟨"1", true, 7, true, true, true, true, true, true, fun _ => .missing, true⟩

/-- Witness for C3 at the example scenario of the specification. -/
theorem C3_missing_entrypoint_distinct_error_witness :
    (Container.startInitProcess envC3 ("/tmp/gocker/rootfs/node/alpine")
        (("/app/index.js") :: [])).1 =
      .error (.entrypointNotFound ("/app/index.js")) ∧
    ∀ p a, Container.CEvent.execed p a ∉
      (Container.startInitProcess envC3 ("/tmp/gocker/rootfs/node/alpine")
        (("/app/index.js") :: [])).2 :=
  C3_missing_entrypoint_distinct_error envC3 _ _ [] rfl rfl rfl rfl

/-- C4: in the supervisor branch, when the child has been started and
cgroup attachment fails (group creation or process addition), Run kills
the spawned child and returns the attach error, and never waits on the
child: no launch proceeds with an unconstrained child. -/
theorem C4_attach_failure_kills_child (env : Container.CEnv) (rootfs : String)
    (command : List String) (h1 : env.initEnvVar ≠ "1") (h2 : env.startOk = true)
    (h3 : ¬(env.newSystemdOk = true ∧ env.addProcOk = true)) :
    (∃ e, (Container.Run env rootfs command).1 = .error e ∧
      (e = Container.CError.cgroupCreateFailed ∨ e = Container.CError.cgroupAddFailed)) ∧
    Container.CEvent.childKilled ∈ (Container.Run env rootfs command).2 ∧
    Container.CEvent.childWaited ∉ (Container.Run env rootfs command).2 := by
  cases hns : env.newSystemdOk with
  | false =>
    refine ⟨⟨Container.CError.cgroupCreateFailed, ?_, Or.inl rfl⟩, ?_, ?_⟩ <;>
      simp [Container.Run, Container.attachToCgroup, h1, h2, hns]
  | true =>
    cases hap : env.addProcOk with
    | true => exact absurd ⟨hns, hap⟩ h3
    | false =>
      refine ⟨⟨Container.CError.cgroupAddFailed, ?_, Or.inr rfl⟩, ?_, ?_⟩ <;>
        simp [Container.Run, Container.attachToCgroup, h1, h2, hns, hap]

/-- A supervisor environment whose cgroup process addition fails. -/
def envC4 : Container.CEnv :=
  ⟨"", true, 42, true, false, true, true, true, true, fun _ => .present, true⟩

/-- Witness for C4: attach failure at process addition. -/
theorem C4_attach_failure_kills_child_witness :
    (∃ e, (Container.Run envC4 ("/tmp/rootfs") [("/bin/sh")]).1 = .error e ∧
      (e = Container.CError.cgroupCreateFailed ∨ e = Container.CError.cgroupAddFailed)) ∧
    Container.CEvent.childKilled ∈ (Container.Run envC4 ("/tmp/rootfs") [("/bin/sh")]).2 ∧
    Container.CEvent.childWaited ∉ (Container.Run envC4 ("/tmp/rootfs") [("/bin/sh")]).2 :=
  C4_attach_failure_kills_child envC4 _ _ (by decide) rfl (by decide)

/-- C5: when the manifest list holds no descriptor matching the host's os
and architecture, selectPlatformDigest fails with the no-matching-platform
error, DownloadImage returns that same error, and the pipeline issues no
manifest fetch and no blob download after the failure. -/
theorem C5_no_platform_match_stops_pipeline (env : Image.RegEnv) (tok : String)
    (ml : Image.ManifestList)
    (h1 : env.authResult = .ok tok) (h2 : env.manifestListResult = .ok ml)
    (h3 : ∀ d ∈ ml.manifests,
      ¬(d.platform.os = env.goos ∧ d.platform.architecture = env.goarch)) :
    (Image.selectPlatformDigest env).1 =
      .error (.noMatchingPlatform env.goos env.goarch) ∧
    (Image.DownloadImage env).1 = .error (.noMatchingPlatform env.goos env.goarch) ∧
    (∀ d, Image.NetEvent.manifestRequest d ∉ (Image.DownloadImage env).2) ∧
    (∀ d, Image.NetEvent.blobRequest d ∉ (Image.DownloadImage env).2) := by
  have hfind : ml.manifests.find?
      (fun m => m.platform.os == env.goos && m.platform.architecture == env.goarch) = none := by
    apply List.find?_eq_none.mpr
    intro d hd hp
    rw [Bool.and_eq_true, beq_iff_eq, beq_iff_eq] at hp
    exact h3 d hd hp
  have hsel : Image.selectPlatformDigest env =
      (.error (.noMatchingPlatform env.goos env.goarch), [.manifestListRequest]) := by
    simp [Image.selectPlatformDigest, h2, hfind]
  have hdl : Image.DownloadImage env =
      (.error (.noMatchingPlatform env.goos env.goarch),
       [.authRequest, .manifestListRequest]) := by
    simp [Image.DownloadImage, Image.authenticate, h1, hsel]
  refine ⟨by rw [hsel], by rw [hdl], ?_, ?_⟩
  · intro d
    rw [hdl]
    simp
  · intro d
    rw [hdl]
    simp

/-- A registry whose manifest list offers only linux on arm64, seen from a
linux amd64 host. -/
def envC5 : Image.RegEnv :=
  ⟨.ok ("tok"), .ok ⟨[⟨"sha256:abc", ⟨"arm64", "linux"⟩⟩]⟩, "linux", "amd64",
   .ok ⟨[]⟩, fun _ => true⟩

/-- Witness for C5. -/
theorem C5_no_platform_match_stops_pipeline_witness :
    (Image.selectPlatformDigest envC5).1 = .error (.noMatchingPlatform ("linux") ("amd64")) ∧
    (Image.DownloadImage envC5).1 = .error (.noMatchingPlatform ("linux") ("amd64")) ∧
    (∀ d, Image.NetEvent.manifestRequest d ∉ (Image.DownloadImage envC5).2) ∧
    (∀ d, Image.NetEvent.blobRequest d ∉ (Image.DownloadImage envC5).2) :=
  C5_no_platform_match_stops_pipeline envC5 ("tok") ⟨[⟨"sha256:abc", ⟨"arm64", "linux"⟩⟩]⟩
    rfl rfl (by decide)

/-- C6: when os.Stat reports the rootfs cache directory for the image and
tag as present, handleFrom reuses that directory as the rootfs path and
performs no download and no assembly: the event trace is empty, so zero
network requests and zero extraction happen, and the short-circuit is
decided by that presence check alone. -/
theorem C6_rootfs_cache_short_circuit (env : Build.BEnv) (st : Build.RunnerState)
    (image tag : String)
    (h : env.stat (Build.rootfsPathFor image tag) = Container.StatR.present) :
    (Build.handleFrom env st image tag).1 =
      .ok { st with rootfsPath := Build.rootfsPathFor image tag } ∧
    (Build.handleFrom env st image tag).2 = [] := by
  have hne : env.stat (Build.rootfsPathFor image tag) ≠ Container.StatR.missing := by
    rw [h]
    simp
  constructor <;> simp [Build.handleFrom, hne]

/-- A build environment in which the rootfs cache directory exists. -/
def envC6 : Build.BEnv := ⟨fun _ => .present, true, true⟩

/-- Witness for C6 at the node alpine image of the example scenario. -/
theorem C6_rootfs_cache_short_circuit_witness :
    (Build.handleFrom envC6 ⟨"", []⟩ ("node") ("alpine")).1 =
      .ok ⟨"/tmp/gocker/rootfs/node/alpine", []⟩ ∧
    (Build.handleFrom envC6 ⟨"", []⟩ ("node") ("alpine")).2 = [] :=
  C6_rootfs_cache_short_circuit envC6 ⟨"", []⟩ ("node") ("alpine") rfl

/-- C7: for archives of directory and regular-file entries only, extraction
into the same target root is last-write-wins and idempotent: if layer A and
then layer B extract successfully, every path written by both layers whose
last write in B is a regular file holds B's content and mode, and
re-extracting A then B over the result succeeds and reproduces the
identical tree. -/
theorem C7_last_write_wins_and_idempotent (fs fsA fs2 : Tar.FS) (A B : List Tar.Entry)
    (hA : Tar.extractEntries fs A = .ok fsA) (hB : Tar.extractEntries fsA B = .ok fs2) :
    (∀ (q : Tar.Path) (c : List Nat) (m : Nat) (eA : Tar.Entry),
      Tar.lastEntryAt A q = some eA → Tar.lastEntryAt B q = some (.reg q c m) →
      fs2 q = some (.file c m)) ∧
    (∃ gA, Tar.extractEntries fs2 A = .ok gA ∧ Tar.extractEntries gA B = .ok fs2) := by
  constructor
  · intro q c m eA _ hlast
    exact Tar.extract_lastEntry_reg hB hlast
  · have hAB : Tar.extractEntries fs (A ++ B) = .ok fs2 := by
      rw [Tar.extract_append, hA]
      exact hB
    have hinv : ∀ q, fs2 q = fs q ∨
        Tar.compatK (Tar.kindOf (fs2 q)) (Tar.firstTouch (A ++ B) q) := by
      intro q
      cases hft : Tar.firstTouch (A ++ B) q with
      | none => exact Or.inl (Tar.extract_none_frame hAB hft)
      | some t =>
        cases t with
        | mkdirT =>
          right
          rw [Tar.extract_mkdirT_dir hAB hft]
          simp [Tar.kindOf, Tar.compatK]
        | regT =>
          right
          obtain ⟨c, m, hcm⟩ := Tar.extract_regT_file hAB hft
          rw [hcm]
          simp [Tar.kindOf, Tar.compatK]
    have hrep : Tar.extractEntries fs2 (A ++ B) = .ok fs2 := Tar.extract_replay hAB hinv
    rw [Tar.extract_append] at hrep
    cases hA2 : Tar.extractEntries fs2 A with
    | ok gA =>
      rw [hA2] at hrep
      exact ⟨gA, rfl, hrep⟩
    | error e2 => rw [hA2] at hrep; cases hrep

/-- The empty target root. -/
def fsEmpty : Tar.FS := fun _ => none

/-- Layer A of the example scenario: directory app, file app index.js. -/
def layerA : List Tar.Entry :=
  [.dir [("app")], .reg [("app"), ("index.js")] [1] 420]

/-- Layer B of the example scenario: the same file with other content and
mode. -/
def layerB : List Tar.Entry := [.reg [("app"), ("index.js")] [2] 493]

/-- The tree after extracting layer A. -/
def fsAfterA : Tar.FS :=
  match Tar.extractEntries fsEmpty layerA with
  | .ok f => f
  | .error _ => fsEmpty

/-- The tree after extracting layer A then layer B. -/
def fsAfterAB : Tar.FS :=
  match Tar.extractEntries fsAfterA layerB with
  | .ok f => f
  | .error _ => fsEmpty

/-- Witness for C7 at the example scenario of the specification. -/
theorem C7_last_write_wins_and_idempotent_witness :
    Tar.extractEntries fsEmpty layerA = .ok fsAfterA ∧
    Tar.extractEntries fsAfterA layerB = .ok fsAfterAB ∧
    fsAfterAB [("app"), ("index.js")] = some (.file [2] 493) ∧
    (∃ gA, Tar.extractEntries fsAfterAB layerA = .ok gA ∧
      Tar.extractEntries gA layerB = .ok fsAfterAB) := by
  have hA : Tar.extractEntries fsEmpty layerA = .ok fsAfterA := rfl
  have hB : Tar.extractEntries fsAfterA layerB = .ok fsAfterAB := rfl
  have hmain := C7_last_write_wins_and_idempotent fsEmpty fsAfterA fsAfterAB layerA layerB hA hB
  exact ⟨hA, hB,
    hmain.1 [("app"), ("index.js")] [2] 493 (.reg [("app"), ("index.js")] [1] 420) rfl rfl,
    hmain.2⟩

/-- C8: the hard-link handler resolves the recorded link name against
targetRoot (a lookup in the same tree), removes the existing entry at the
destination, and links the destination to the same underlying file as the
target; when the resolved target does not exist in the tree at extraction
time, the operation fails. -/
theorem C8_hardlink_resolution (fs : HardLink.HFS) (name linkname : Tar.Path) :
    (HardLink.hlookup fs linkname = none →
      ∃ e, HardLink.handleLink fs name linkname = .error e) ∧
    (∀ i : Nat, HardLink.hlookup fs linkname = some (.ref i) →
      (∀ q ∈ Tar.parentsOf name,
        HardLink.hlookup fs q = none ∨ HardLink.hlookup fs q = some .dir) →
      (HardLink.hlookup fs name = none ∨
        ∃ j, HardLink.hlookup fs name = some (.ref j)) →
      name ≠ linkname → linkname ∉ Tar.parentsOf name →
      ∃ fs3, HardLink.handleLink fs name linkname = .ok fs3 ∧
        HardLink.hlookup fs3 name = some (.ref i) ∧
        HardLink.hlookup fs3 linkname = some (.ref i)) := by
  constructor
  · intro hnone
    cases hmk : HardLink.hmkdirList fs (Tar.parentsOf name) with
    | error e =>
      refine ⟨e, ?_⟩
      unfold HardLink.handleLink
      rw [hmk]
    | ok fs1 =>
      have hgoal : HardLink.handleLink fs name linkname =
          HardLink.osLink (HardLink.osRemove fs1 name) linkname name := by
        unfold HardLink.handleLink
        rw [hmk]
      have h1 := HardLink.hmkdirList_lookup hmk linkname
      have h2 := HardLink.osRemove_lookup fs1 name linkname
      cases hn : HardLink.hlookup (HardLink.osRemove fs1 name) name with
      | some v =>
        refine ⟨.linkExist, ?_⟩
        rw [hgoal]
        unfold HardLink.osLink
        rw [hn]
      | none =>
        cases hl : HardLink.hlookup (HardLink.osRemove fs1 name) linkname with
        | none =>
          refine ⟨.linkNoEnt, ?_⟩
          rw [hgoal]
          unfold HardLink.osLink
          rw [hn, hl]
        | some v =>
          cases v with
          | dir =>
            refine ⟨.linkPerm, ?_⟩
            rw [hgoal]
            unfold HardLink.osLink
            rw [hn, hl]
          | ref i =>
            exfalso
            rcases h2 with h2a | h2a
            · rw [hl] at h2a
              rcases h1 with h1a | h1a
              · rw [hnone] at h1a
                rw [h1a] at h2a
                cases h2a
              · rw [h1a] at h2a
                cases h2a
            · rw [hl] at h2a
              cases h2a
  · intro i hlink hparents hdest hne hnp
    obtain ⟨fs1, hmk, hpres⟩ := HardLink.hmkdirList_success hparents
    have hname1 : HardLink.hlookup fs1 name = HardLink.hlookup fs name :=
      hpres name (fun hm => (Tar.mem_parentsOf.mp hm).2.2 rfl)
    have hlink1 : HardLink.hlookup fs1 linkname = HardLink.hlookup fs linkname :=
      hpres linkname hnp
    have hd1 : HardLink.hlookup fs1 name = none ∨
        ∃ j, HardLink.hlookup fs1 name = some (.ref j) := by
      rw [hname1]
      exact hdest
    obtain ⟨hrmNone, hrmPres⟩ := HardLink.osRemove_clears hd1
    have hlink2 : HardLink.hlookup (HardLink.osRemove fs1 name) linkname =
        some (.ref i) := by
      rw [hrmPres linkname (Ne.symm hne), hlink1, hlink]
    have hlinkres : HardLink.osLink (HardLink.osRemove fs1 name) linkname name =
        .ok ((name, .ref i) :: HardLink.osRemove fs1 name) := by
      unfold HardLink.osLink
      rw [hrmNone, hlink2]
    refine ⟨(name, .ref i) :: HardLink.osRemove fs1 name, ?_, ?_, ?_⟩
    · unfold HardLink.handleLink
      rw [hmk]
      exact hlinkres
    · simp [HardLink.hlookup]
    · have hstep : HardLink.hlookup
          ((name, HardLink.HNode.ref i) :: HardLink.osRemove fs1 name) linkname =
          HardLink.hlookup (HardLink.osRemove fs1 name) linkname := by
        simp [HardLink.hlookup, Ne.symm hne]
      rw [hstep, hlink2]

/-- A tree with a file under data, the app directory, and an old file at a
future link destination. -/
def fsC8 : HardLink.HFS :=
  [([("data"), ("f")], .ref 7), ([("app")], .dir), ([("app"), ("old")], .ref 3)]

/-- Witness for C8: a missing target fails; an existing target yields a
second name for the same underlying file, replacing nothing pre-existing at
the destination. -/
theorem C8_hardlink_resolution_witness :
    (∃ e, HardLink.handleLink fsC8 [("app"), ("bin")] [("data"), ("missing")] = .error e) ∧
    (∃ fs3, HardLink.handleLink fsC8 [("app"), ("bin")] [("data"), ("f")] = .ok fs3 ∧
      HardLink.hlookup fs3 [("app"), ("bin")] = some (.ref 7) ∧
      HardLink.hlookup fs3 [("data"), ("f")] = some (.ref 7)) :=
  ⟨(C8_hardlink_resolution fsC8 [("app"), ("bin")] [("data"), ("missing")]).1 rfl,
   (C8_hardlink_resolution fsC8 [("app"), ("bin")] [("data"), ("f")]).2 7 rfl
     (by decide) (Or.inl rfl) (by decide) (by decide)⟩

/-- C9: every supervised launch that starts its child creates the cgroup
with exactly the fixed policy (memory ceiling 1024 * 1024 * 1024 bytes,
CPU quota 10000 over period 100000) and, when group creation succeeds,
adds exactly the spawned child's pid to it; the ceiling is one GiB and the
quota is ten percent of the period. -/
theorem C9_fixed_resource_policy (env : Container.CEnv) (rootfs : String)
    (command : List String) (h1 : env.initEnvVar ≠ "1") (h2 : env.startOk = true)
    (h3 : env.newSystemdOk = true) :
    Container.CEvent.cgroupCreated (1024 * 1024 * 1024) 10000 100000 ∈
      (Container.Run env rootfs command).2 ∧
    (∀ mm cq cp, Container.CEvent.cgroupCreated mm cq cp ∈
      (Container.Run env rootfs command).2 →
      mm = 1024 * 1024 * 1024 ∧ cq = 10000 ∧ cp = 100000) ∧
    Container.CEvent.procAdded env.childPid ∈ (Container.Run env rootfs command).2 ∧
    (∀ p2, Container.CEvent.procAdded p2 ∈ (Container.Run env rootfs command).2 →
      p2 = env.childPid) ∧
    Container.memoryMax = 2 ^ 30 ∧
    10 * Container.cpuQuota = (Container.cpuPeriod : Int) := by
  cases hap : env.addProcOk with
  | true =>
    have hev : (Container.Run env rootfs command).2 =
        [Container.CEvent.childStarted env.childPid,
         Container.CEvent.cgroupCreated Container.memoryMax Container.cpuQuota
           Container.cpuPeriod,
         Container.CEvent.procAdded env.childPid,
         Container.CEvent.childWaited] := by
      simp [Container.Run, Container.attachToCgroup, h1, h2, h3, hap]
    refine ⟨?_, ?_, ?_, ?_, by decide, by decide⟩
    · rw [hev]
      simp [Container.memoryMax, Container.cpuQuota, Container.cpuPeriod]
    · intro mm cq cp hm
      rw [hev] at hm
      simp [Container.memoryMax, Container.cpuQuota, Container.cpuPeriod] at hm
      exact ⟨hm.1, hm.2.1, hm.2.2⟩
    · rw [hev]
      simp
    · intro p2 hm
      rw [hev] at hm
      simp at hm
      exact hm
  | false =>
    have hev : (Container.Run env rootfs command).2 =
        [Container.CEvent.childStarted env.childPid,
         Container.CEvent.cgroupCreated Container.memoryMax Container.cpuQuota
           Container.cpuPeriod,
         Container.CEvent.procAdded env.childPid,
         Container.CEvent.childKilled] := by
      simp [Container.Run, Container.attachToCgroup, h1, h2, h3, hap]
    refine ⟨?_, ?_, ?_, ?_, by decide, by decide⟩
    · rw [hev]
      simp [Container.memoryMax, Container.cpuQuota, Container.cpuPeriod]
    · intro mm cq cp hm
      rw [hev] at hm
      simp [Container.memoryMax, Container.cpuQuota, Container.cpuPeriod] at hm
      exact ⟨hm.1, hm.2.1, hm.2.2⟩
    · rw [hev]
      simp
    · intro p2 hm
      rw [hev] at hm
      simp at hm
      exact hm

/-- A supervisor environment in which everything succeeds. -/
def envC9 : Container.CEnv :=
  ⟨"", true, 42, true, true, true, true, true, true, fun _ => .present, true⟩

/-- Witness for C9. -/
theorem C9_fixed_resource_policy_witness :
    Container.CEvent.cgroupCreated (1024 * 1024 * 1024) 10000 100000 ∈
      (Container.Run envC9 ("/tmp/rootfs") [("/bin/sh")]).2 ∧
    (∀ mm cq cp, Container.CEvent.cgroupCreated mm cq cp ∈
      (Container.Run envC9 ("/tmp/rootfs") [("/bin/sh")]).2 →
      mm = 1024 * 1024 * 1024 ∧ cq = 10000 ∧ cp = 100000) ∧
    Container.CEvent.procAdded (envC9.childPid) ∈
      (Container.Run envC9 ("/tmp/rootfs") [("/bin/sh")]).2 ∧
    (∀ p2, Container.CEvent.procAdded p2 ∈
      (Container.Run envC9 ("/tmp/rootfs") [("/bin/sh")]).2 → p2 = envC9.childPid) ∧
    Container.memoryMax = 2 ^ 30 ∧
    10 * Container.cpuQuota = (Container.cpuPeriod : Int) :=
  C9_fixed_resource_policy envC9 _ _ (by decide) rfl rfl

/-- C10 counterexample: a FROM line whose image argument has no colon makes
Parse terminate abnormally: Go indexes element 1 of a one-element split,
an out-of-range slice index, i.e. a runtime panic, so Parse is not total. -/
theorem C10_colonless_from_panics :
    Dockerfile.ParseLines [("FROM node")] = .panicked := rfl

/-- C10 amended: Parse returns a list of instructions or an error, with no
abnormal termination, for every input in which each line whose fields are
exactly FROM and one argument has a colon in that argument; the only panic
is the colonless FROM case. -/
theorem C10_parse_total_without_colonless_from (lines : List String)
    (h : ∀ l ∈ lines, ∀ x, goFields (goTrimSpace l) = [("FROM"), x] →
      2 ≤ (goSplitColon x).length) :
    Dockerfile.ParseLines lines ≠ .panicked :=
  Dockerfile.parseLoop_no_panic lines [] h

/-- The lines of the example Dockerfile. -/
def dockerfileLines : List String :=
  [("# build"), (""), ("FROM node:alpine"), ("COPY index.js /app/index.js"),
   ("ENTRYPOINT /app/index.js")]

/-- Witness for the amended C10 theorem on the example Dockerfile. -/
theorem C10_parse_total_without_colonless_from_witness :
    (∀ l ∈ dockerfileLines, ∀ x, goFields (goTrimSpace l) = [("FROM"), x] →
      2 ≤ (goSplitColon x).length) ∧
    Dockerfile.ParseLines dockerfileLines ≠ .panicked := by
  have hcond : ∀ l ∈ dockerfileLines, ∀ x, goFields (goTrimSpace l) = [("FROM"), x] →
      2 ≤ (goSplitColon x).length := by
    intro l hl x hx
    simp only [dockerfileLines, List.mem_cons, List.not_mem_nil, or_false] at hl
    rcases hl with rfl | rfl | rfl | rfl | rfl
    · rw [show goFields (goTrimSpace ("# build")) = [("#"), ("build")] from rfl] at hx
      simp at hx
    · rw [show goFields (goTrimSpace ("")) = ([] : List String) from rfl] at hx
      cases hx
    · rw [show goFields (goTrimSpace ("FROM node:alpine")) =
        [("FROM"), ("node:alpine")] from rfl] at hx
      injection hx with h1 h2
      injection h2 with h3 _
      rw [← h3]
      decide
    · rw [show goFields (goTrimSpace ("COPY index.js /app/index.js")) =
        [("COPY"), ("index.js"), ("/app/index.js")] from rfl] at hx
      simp at hx
    · rw [show goFields (goTrimSpace ("ENTRYPOINT /app/index.js")) =
        [("ENTRYPOINT"), ("/app/index.js")] from rfl] at hx
      simp at hx
  exact ⟨hcond, C10_parse_total_without_colonless_from dockerfileLines hcond⟩

end Gocker
